import Mathlib

/-!
Weighted k-NN website fingerprinting: `wa-knn.go`.

A shallow embedding of the numeric core of `src/wa-knn.go` (the weighted L1
distance, the minimum/maximum scans, the WLLCC weight learner and the weighted
k-NN classifier) together with the properties of the specification that were
checked against it.

Modelling conventions.

* `float64` values are exact rationals (`ℚ`).  A float division whose divisor is
  zero produces `±Inf` or `NaN` in Go; such a value is outside the rational
  model and the run is reported as `Fault.divByZero` at the point where the
  quotient is computed.  Rounding and overflow are not modelled; a property
  that overflow would break is stated with a range hypothesis (`maxFloat64`).
* Go slices are lists.  A slice that the source mutates in place is threaded
  through the model as explicit state, including the buffers the source
  allocates once and reuses.
* A Go runtime panic (index out of range, `make` with a negative length) is
  `Fault.panic`.
* Values of Go type `int` that are stored in slices or passed in from the caller
  are `Int`; counters of `for j := 0; j < n; j++` and `range` loops are `Nat`.
* The goroutines that fill the distance row write disjoint slots from pure
  computations and are joined before the row is read, so the row is filled by a
  sequential loop; a panic in any of them ends the run.
-/

namespace WaKnn

/-- Ways in which a run leaves the model. -/
inductive Fault
  | panic
  | divByZero
  deriving DecidableEq, Repr

deriving instance DecidableEq for Except

/-- Computations of the embedding: a value, or the fault that ended the run. -/
abbrev Run := Except Fault

/-- Read `xs[i]` for a loop counter `i`. -/
def getAt {α : Type} (xs : List α) (i : Nat) : Run α :=
  match xs[i]? with
  | some x => pure x
  | none => throw Fault.panic

/-- Write `xs[i] = x` for a loop counter `i`. -/
def setAt {α : Type} (xs : List α) (i : Nat) (x : α) : Run (List α) :=
  if i < xs.length then pure (xs.set i x) else throw Fault.panic

/-- Read `xs[v]` for a Go `int` value `v`. -/
def getIdx {α : Type} (xs : List α) (v : Int) : Run α :=
  if 0 ≤ v then getAt xs v.toNat else throw Fault.panic

/-- Write `xs[v] = x` for a Go `int` value `v`. -/
def setIdx {α : Type} (xs : List α) (v : Int) (x : α) : Run (List α) :=
  if 0 ≤ v then setAt xs v.toNat x else throw Fault.panic

/-- Float division `a / b`; a zero divisor leaves the rational model. -/
def fdiv (a b : ℚ) : Run ℚ :=
  if b = 0 then throw Fault.divByZero else pure (a / b)

/-! ## Leaf functions (lines 50-87) -/

/-- Source `getWeightedL1Norm` (lines 50-57). -/
def getWeightedL1Norm (p1 p2 weight : List ℚ) (presentFeats : List Int) : Run ℚ :=
  presentFeats.foldlM (fun d v => do
    let b ← getIdx p2 v
    if b ≠ 0 then
      let w ← getIdx weight v
      let a ← getIdx p1 v
      pure (d + w * |a - b|)
    else
      pure d) 0

/-- Source `getMinSubset` (lines 59-67); the results `idx`, `val` start at zero. -/
def getMinSubset (distList : List ℚ) (subsetInds : List Int) : Run (Int × ℚ) :=
  subsetInds.foldlM (fun (r : Int × ℚ) v => do
    let dv ← getIdx distList v
    if dv < r.2 then pure (v, dv) else pure r) (0, 0)

/-- Source `getMin` (lines 69-77); the results `idx`, `val` start at zero. -/
def getMin (distList : List ℚ) : Nat × ℚ :=
  distList.enum.foldl (fun r iv => if iv.2 < r.2 then (iv.1, iv.2) else r) (0, 0)

/-- Source `getMax` (lines 79-87); the results `idx`, `val` start at zero. -/
def getMax (distList : List ℚ) : Nat × ℚ :=
  distList.enum.foldl (fun r iv => if iv.2 > r.2 then (iv.1, iv.2) else r) (0, 0)

/-! ## Loops shared by the learner and the classifier -/

/-- The present-feature loop (lines 133-139 and 305-311): the indices of the
non-zero entries of `p` are stored in the first `numPresent` slots of the reused
buffer `presentFeats`; the result is the buffer and `numPresent`. -/
def fillPresentFeats (p : List ℚ) (featNum : Nat) (presentFeats : List Int) :
    Run (List Int × Nat) :=
  (List.range featNum).foldlM (fun (s : List Int × Nat) j => do
    let x ← getAt p j
    if x ≠ 0 then
      let buf ← setAt s.1 s.2 (j : Int)
      pure (buf, s.2 + 1)
    else
      pure s) (presentFeats, 0)

/-- The distance-row loop (lines 154-163 and 314-323): slot `j` of `distList`
receives the distance from `p` to `xTrain[j]` over `presentFeats[:numPresent]`. -/
def fillDistList (p weight : List ℚ) (xTrain : List (List ℚ)) (presentFeats : List Int)
    (numPresent : Nat) (distList : List ℚ) : Run (List ℚ) :=
  xTrain.enum.foldlM (fun dl jp => do
    let d ← getWeightedL1Norm p jp.2 weight (presentFeats.take numPresent)
    setAt dl jp.1 d) distList

/-! ## The classifier (lines 299-338) -/

/-- The neighbour loop of `classify` (lines 327-334), run for `n` more
iterations on the state `(distList, yTrain)`; the `break` ends it early. -/
def nearestLoop (i : Nat) (maxVal : ℚ) : Nat → List ℚ → List ℚ → Run (List ℚ × List ℚ)
  | 0, distList, yTrain => pure (distList, yTrain)
  | n + 1, distList, yTrain => do
    let minIdx := (getMin distList).1
    let y ← getAt yTrain minIdx
    if y = 0 then
      let yTrain ← setAt yTrain i 0
      pure (distList, yTrain)
    else
      let distList ← setAt distList minIdx maxVal
      nearestLoop i maxVal n distList yTrain

/-- Mutable state of `classify`: the two reused buffers and the caller's label
slice, which the function writes into. -/
structure ClassifyState where
  distList : List ℚ
  presentFeats : List Int
  yTrain : List ℚ
  deriving DecidableEq, Repr

/-- One iteration of the outer loop of `classify` (lines 304-336) for the test
instance `ip.2` at position `ip.1`. -/
def classifyPoint (xTrain : List (List ℚ)) (weight : List ℚ) (featNum : Nat)
    (neighborNum : Int) (s : ClassifyState) (ip : Nat × List ℚ) : Run ClassifyState := do
  let pf ← fillPresentFeats ip.2 featNum s.presentFeats
  let distList ← fillDistList ip.2 weight xTrain pf.1 pf.2 s.distList
  let maxVal := (getMax distList).2
  let r ← nearestLoop ip.1 maxVal neighborNum.toNat distList s.yTrain
  let yTrain ← setAt r.2 ip.1 1
  pure ⟨r.1, pf.1, yTrain⟩

/-- Source `classify` (lines 299-338).  The first component is the returned
slice `yResult`, which the source never assigns; the second is the caller's
`yTrain` slice after the call. -/
def classify (xTrain xTest : List (List ℚ)) (yTrain weight : List ℚ) (neighborNum : Int) :
    Run (List ℚ × List ℚ) := do
  let distList := List.replicate xTrain.length (0 : ℚ)
  let row0 ← getAt xTrain 0
  let featNum := row0.length
  let presentFeats := List.replicate featNum (0 : Int)
  let s ← xTest.enum.foldlM (classifyPoint xTrain weight featNum neighborNum)
    ⟨distList, presentFeats, yTrain⟩
  pure ([], s.yTrain)

/-! ## The weight learner (lines 90-278) -/

/-- The counting loop of `wllcc` (lines 108-115): `(monitoredCount, nonMonitoredCount)`. -/
def countClasses (yTrain : List ℚ) : Nat × Nat :=
  yTrain.foldl (fun c v => if v = 0 then (c.1 + 1, c.2) else (c.1, c.2 + 1)) (0, 0)

/-- The partition of `wllcc` (lines 116-127): both index slices are allocated
with the counted sizes and filled in one pass over `yTrain`; the result is
`(monitoredInds, nonMonitoredInds)`. -/
def partitionInds (yTrain : List ℚ) : Run (List Int × List Int) := do
  let counts := countClasses yTrain
  let monitoredInds := List.replicate counts.1 (0 : Int)
  let nonMonitoredInds := List.replicate counts.2 (0 : Int)
  let r ← yTrain.enum.foldlM (fun (s : (List Int × Nat) × (List Int × Nat)) iv =>
    if iv.2 = 0 then do
      let m ← setAt s.1.1 s.1.2 (iv.1 : Int)
      pure ((m, s.1.2 + 1), s.2)
    else do
      let n ← setAt s.2.1 s.2.2 (iv.1 : Int)
      pure (s.1, (n, s.2.2 + 1))) ((monitoredInds, 0), (nonMonitoredInds, 0))
  pure (r.1.1, r.2.1)

/-- The good-neighbour loop (lines 176-184) on the state
`(maxGoodDist, distList, recoGoodList)`. -/
def selectGood (classInds : List Int) (maxVal : ℚ) (recoPointsNum : Nat)
    (distList : List ℚ) (recoGoodList : List Int) : Run (ℚ × List ℚ × List Int) :=
  (List.range recoPointsNum).foldlM (fun (s : ℚ × List ℚ × List Int) j => do
    let r ← getMinSubset s.2.1 classInds
    let maxGoodDist := if r.2 > s.1 then r.2 else s.1
    let dl ← setIdx s.2.1 r.1 maxVal
    let reco ← setAt s.2.2 j r.1
    pure (maxGoodDist, dl, reco)) (0, distList, recoGoodList)

/-- The bad-neighbour loop (lines 185-193) on the state
`(pointBadness, distList, recoBadList)`. -/
def selectBad (nonClassInds : List Int) (maxVal maxGoodDist : ℚ) (recoPointsNum : Nat)
    (distList : List ℚ) (recoBadList : List Int) : Run (ℚ × List ℚ × List Int) :=
  (List.range recoPointsNum).foldlM (fun (s : ℚ × List ℚ × List Int) j => do
    let r ← getMinSubset s.2.1 nonClassInds
    let d ← getIdx s.2.1 r.1
    let pointBadness := if d ≤ maxGoodDist then s.1 + 1 else s.1
    let dl ← setIdx s.2.1 r.1 maxVal
    let reco ← setAt s.2.2 j r.1
    pure (pointBadness, dl, reco)) (0, distList, recoBadList)

/-- The scan of lines 199-207 for feature `j`: `maxGoodFeatDist`. -/
def maxGoodFeatDist (xTrain : List (List ℚ)) (pTrain weight : List ℚ)
    (recoGoodList : List Int) (j : Nat) : Run ℚ :=
  recoGoodList.foldlM (fun m v => do
    let row ← getIdx xTrain v
    let x ← getAt row j
    if x ≠ 0 then
      let p ← getAt pTrain j
      if p ≠ 0 then
        let w ← getAt weight j
        let n := w * |x - p|
        pure (if n > m then n else m)
      else
        pure m
    else
      pure m) 0

/-- The scan of lines 215-223 for feature `j`: the values accumulated in
`badList[j]` and `featDist[j]`, both reset to zero before the scan. -/
def badFeatStats (xTrain : List (List ℚ)) (pTrain weight : List ℚ)
    (recoBadList : List Int) (j : Nat) (maxGood : ℚ) : Run (ℚ × ℚ) :=
  recoBadList.foldlM (fun (s : ℚ × ℚ) v => do
    let row ← getIdx xTrain v
    let x ← getAt row j
    if x ≠ 0 then
      let p ← getAt pTrain j
      if p ≠ 0 then
        let n := |x - p|
        let w ← getAt weight j
        pure (if w * n ≤ maxGood then s.1 + 1 else s.1, s.2 + n)
      else
        pure s
    else
      pure s) (0, 0)

/-- The per-feature loop (lines 196-224) on the state `(badList, featDist)`. -/
def featureStats (xTrain : List (List ℚ)) (pTrain weight : List ℚ)
    (recoGoodList recoBadList : List Int) (featNum : Nat)
    (badList featDist : List ℚ) : Run (List ℚ × List ℚ) :=
  (List.range featNum).foldlM (fun (s : List ℚ × List ℚ) j => do
    let maxGood ← maxGoodFeatDist xTrain pTrain weight recoGoodList j
    let bl ← setAt s.1 j 0
    let fd ← setAt s.2 j 0
    let r ← badFeatStats xTrain pTrain weight recoBadList j maxGood
    let bl ← setAt bl j r.1
    let fd ← setAt fd j r.2
    pure (bl, fd)) (badList, featDist)

/-- The weight-decrease loop (lines 236-243) on the state `(weight, c1)`. -/
def decreasePhase (featNum : Nat) (badList featDist : List ℚ)
    (minBadList pointBadness : ℚ) (recoPointsNum : Int) (weight : List ℚ) :
    Run (List ℚ × ℚ) :=
  (List.range featNum).foldlM (fun (s : List ℚ × ℚ) j => do
    let b ← getAt badList j
    if b ≠ minBadList then
      let w ← getAt s.1 j
      let deltaW ← fdiv (w * (1 / 100) * b * (1 / 5 + pointBadness))
        ((recoPointsNum : ℚ) ^ 2)
      let wt ← setAt s.1 j (w - deltaW)
      let fd ← getAt featDist j
      pure (wt, s.2 + deltaW * fd)
    else
      pure s) (weight, 0)

/-- The loop of lines 244-249: `totalfd`. -/
def totalFeatDist (featNum : Nat) (badList featDist : List ℚ) (minBadList : ℚ)
    (weight : List ℚ) : Run ℚ :=
  (List.range featNum).foldlM (fun t j => do
    let b ← getAt badList j
    if b = minBadList then
      let w ← getAt weight j
      if w > 0 then
        let fd ← getAt featDist j
        pure (t + fd)
      else
        pure t
    else
      pure t) 0

/-- The loop of lines 255-260: `weightTotal`. -/
def weightTotalOf (featNum : Nat) (badList : List ℚ) (minBadList : ℚ)
    (weight : List ℚ) : Run ℚ :=
  (List.range featNum).foldlM (fun t j => do
    let b ← getAt badList j
    if b = minBadList then
      let w ← getAt weight j
      if w > 0 then pure (t + w) else pure t
    else
      pure t) 0

/-- The original weight increase (lines 269-273). -/
def increaseOriginal (featNum : Nat) (badList : List ℚ) (minBadList c1 totalfd : ℚ)
    (weight : List ℚ) : Run (List ℚ) :=
  (List.range featNum).foldlM (fun wt j => do
    let b ← getAt badList j
    if b = minBadList then
      let w ← getAt wt j
      if w > 0 then
        let q ← fdiv c1 totalfd
        setAt wt j (w + q)
      else
        pure wt
    else
      pure wt) weight

/-- The proportional weight increase (lines 255-266).  `weightAverage` is
computed before the loop; when it is not finite the run faults where the value
is first used. -/
def increaseProportional (featNum : Nat) (badList : List ℚ) (minBadList c1 totalfd : ℚ)
    (weight : List ℚ) : Run (List ℚ) := do
  let weightTotal ← weightTotalOf featNum badList minBadList weight
  let weightAverage := fdiv weightTotal (featNum : ℚ)
  (List.range featNum).foldlM (fun wt j => do
    let b ← getAt badList j
    if b = minBadList then
      let w ← getAt wt j
      if w > 0 then
        let q ← fdiv c1 totalfd
        let avg ← weightAverage
        let r ← fdiv w avg
        setAt wt j (w + q * r)
      else
        pure wt
    else
      pure wt) weight

/-- The weight-increase phase (lines 244-274): `totalfd`, then the variant
selected by `increaseWeightsProportionally`. -/
def increasePhase (proportional : Bool) (featNum : Nat) (badList featDist : List ℚ)
    (minBadList c1 : ℚ) (weight : List ℚ) : Run (List ℚ) := do
  let totalfd ← totalFeatDist featNum badList featDist minBadList weight
  if proportional then
    increaseProportional featNum badList minBadList c1 totalfd weight
  else
    increaseOriginal featNum badList minBadList c1 totalfd weight

/-- Mutable state of `wllcc`: the weight vector and the buffers allocated once
at the top of the function. -/
structure LearnState where
  weight : List ℚ
  distList : List ℚ
  recoGoodList : List Int
  recoBadList : List Int
  featDist : List ℚ
  badList : List ℚ
  deriving DecidableEq, Repr

/-- One round for training point `i` (the body of the loop of lines 150-275). -/
def wllccRound (xTrain : List (List ℚ)) (recoPointsNum : Int) (proportional : Bool)
    (featNum i : Nat) (pTrain : List ℚ) (presentFeats : List Int) (numPresent : Nat)
    (classInds nonClassInds : List Int) (s : LearnState) : Run LearnState := do
  let distList ← fillDistList pTrain s.weight xTrain presentFeats numPresent s.distList
  let maxVal := (getMax distList).2
  let distList ← setAt distList i maxVal
  let g ← selectGood classInds maxVal recoPointsNum.toNat distList s.recoGoodList
  let b ← selectBad nonClassInds maxVal g.1 recoPointsNum.toNat g.2.1 s.recoBadList
  let st ← featureStats xTrain pTrain s.weight g.2.2 b.2.2 featNum s.badList s.featDist
  let minBadList := (getMin st.1).2
  let d ← decreasePhase featNum st.1 st.2 minBadList b.1 recoPointsNum s.weight
  let weight ← increasePhase proportional featNum st.1 st.2 minBadList d.2 d.1
  pure ⟨weight, b.2.1, g.2.2, b.2.2, st.2, st.1⟩

/-- One iteration of the loop over the training points (lines 130-276); the
present-feature buffer is part of the state `sp`. -/
def trainPoint (xTrain : List (List ℚ)) (yTrain : List ℚ) (rounds recoPointsNum : Int)
    (proportional : Bool) (featNum : Nat) (monitoredInds nonMonitoredInds : List Int)
    (sp : LearnState × List Int) (ip : Nat × List ℚ) : Run (LearnState × List Int) := do
  let pf ← fillPresentFeats ip.2 featNum sp.2
  let y ← getAt yTrain ip.1
  let classInds := if y = 0 then monitoredInds else nonMonitoredInds
  let nonClassInds := if y = 0 then nonMonitoredInds else monitoredInds
  let s ← (List.range rounds.toNat).foldlM (fun s _ =>
    wllccRound xTrain recoPointsNum proportional featNum ip.1 ip.2 pf.1 pf.2
      classInds nonClassInds s) sp.1
  pure (s, pf.1)

/-- Source `wllcc` (lines 90-278).  `rnd k` is the value of the `k`-th call of
`rand.Float64()`.  The named result `weight` is never allocated, so the
initialisation loop writes into the nil slice. -/
def wllcc (xTrain : List (List ℚ)) (yTrain : List ℚ) (rounds recoPointsNum : Int)
    (proportional : Bool) (rnd : Nat → ℚ) : Run (List ℚ) := do
  let distList := List.replicate xTrain.length (0 : ℚ)
  if recoPointsNum < 0 then throw Fault.panic
  let recoGoodList := List.replicate recoPointsNum.toNat (0 : Int)
  let recoBadList := List.replicate recoPointsNum.toNat (0 : Int)
  let row0 ← getAt xTrain 0
  let featNum := row0.length
  let featDist := List.replicate featNum (0 : ℚ)
  let presentFeats := List.replicate featNum (0 : Int)
  let badList := List.replicate featNum (0 : ℚ)
  let weight ← (List.range featNum).foldlM (fun (w : List ℚ) i =>
    setAt w i (rnd i + 1 / 2)) []
  let inds ← partitionInds yTrain
  let sp ← xTrain.enum.foldlM
    (trainPoint xTrain yTrain rounds recoPointsNum proportional featNum inds.1 inds.2)
    (⟨weight, distList, recoGoodList, recoBadList, featDist, badList⟩, presentFeats)
  pure sp.1.weight


/-! ## Basic facts about the run monad and slice access -/

@[simp] theorem ok_bind {α β : Type} (a : α) (f : α → Run β) :
    ((Except.ok a : Run α) >>= f) = f a := rfl

@[simp] theorem error_bind {α β : Type} (e : Fault) (f : α → Run β) :
    ((Except.error e : Run α) >>= f) = Except.error e := rfl

@[simp] theorem pure_eq_ok {α : Type} (a : α) : (pure a : Run α) = Except.ok a := rfl

@[simp] theorem throw_eq_error {α : Type} (e : Fault) :
    (throw e : Run α) = Except.error e := rfl

theorem getAt_of_lt {α : Type} (xs : List α) (i : Nat) (d : α) (h : i < xs.length) :
    getAt xs i = Except.ok (xs.getD i d) := by
  simp [getAt, List.getD, List.getElem?_eq_getElem h]

theorem getAt_of_le {α : Type} (xs : List α) (i : Nat) (h : xs.length ≤ i) :
    getAt xs i = Except.error Fault.panic := by
  simp [getAt, List.getElem?_eq_none h]

theorem setAt_of_lt {α : Type} (xs : List α) (i : Nat) (x : α) (h : i < xs.length) :
    setAt xs i x = Except.ok (xs.set i x) := by
  simp [setAt, h]

theorem getIdx_natCast {α : Type} (xs : List α) (j : Nat) :
    getIdx xs (j : Int) = getAt xs j := by
  simp [getIdx]

theorem getIdx_of_lt {α : Type} (xs : List α) (v : Int) (d : α) (h0 : 0 ≤ v)
    (h : v < xs.length) : getIdx xs v = Except.ok (xs.getD v.toNat d) := by
  have hv : v.toNat < xs.length := by omega
  simp [getIdx, h0, getAt_of_lt xs v.toNat d hv]


/-! ## The weighted L1 distance -/

/-- One loop iteration of `getWeightedL1Norm` for the entry `v`. -/
def l1Step (p1 p2 weight : List ℚ) (d : ℚ) (v : Int) : Run ℚ := do
  let b ← getIdx p2 v
  if b ≠ 0 then
    let w ← getIdx weight v
    let a ← getIdx p1 v
    pure (d + w * |a - b|)
  else
    pure d

theorem getWeightedL1Norm_eq_foldlM (p1 p2 weight : List ℚ) (presentFeats : List Int) :
    getWeightedL1Norm p1 p2 weight presentFeats
      = presentFeats.foldlM (l1Step p1 p2 weight) 0 := rfl

/-- The contribution `weight[v] * |p1[v] - p2[v]|` of an in-range index `v`. -/
def l1Term (p1 p2 weight : List ℚ) (v : Int) : ℚ :=
  weight.getD v.toNat 0 * |p1.getD v.toNat 0 - p2.getD v.toNat 0|

theorem l1Step_of_inRange (p1 p2 weight : List ℚ) (d : ℚ) (v : Int)
    (h1 : p1.length = p2.length) (h2 : weight.length = p2.length)
    (h0 : 0 ≤ v) (hv : v < p2.length) :
    l1Step p1 p2 weight d v
      = Except.ok (d + if p2.getD v.toNat 0 ≠ 0 then l1Term p1 p2 weight v else 0) := by
  have e2 := getIdx_of_lt p2 v 0 h0 hv
  have e1 := getIdx_of_lt p1 v 0 h0 (by omega)
  have ew := getIdx_of_lt weight v 0 h0 (by omega)
  unfold l1Step
  rw [e2, ok_bind]
  by_cases hb : p2.getD v.toNat 0 = 0
  · simp only [hb, ne_eq, not_true_eq_false, if_false, pure_eq_ok, add_zero]
  · simp only [hb, ne_eq, not_false_eq_true, if_true, ew, e1, ok_bind, pure_eq_ok, l1Term]

theorem foldlM_l1Step_inRange (p1 p2 weight : List ℚ)
    (h1 : p1.length = p2.length) (h2 : weight.length = p2.length) :
    ∀ (pf : List Int) (d : ℚ), (∀ v ∈ pf, 0 ≤ v ∧ v < p2.length) →
      pf.foldlM (l1Step p1 p2 weight) d
        = Except.ok (d + ((pf.filter (fun v => p2.getD v.toNat 0 ≠ 0)).map
            (l1Term p1 p2 weight)).sum) := by
  intro pf
  induction pf with
  | nil => intro d _; simp
  | cons v vs ih =>
    intro d hin
    have hv := hin v (List.mem_cons_self v vs)
    have hvs : ∀ u ∈ vs, 0 ≤ u ∧ u < p2.length :=
      fun u hu => hin u (List.mem_cons_of_mem v hu)
    rw [List.foldlM_cons, l1Step_of_inRange p1 p2 weight d v h1 h2 hv.1 hv.2, ok_bind,
      ih _ hvs]
    by_cases hb : p2.getD v.toNat 0 = 0
    · simp only [hb, ne_eq, not_true_eq_false, if_false, add_zero, decide_False,
        List.filter_cons_of_neg, Bool.false_eq_true, not_false_eq_true]
    · simp only [hb, ne_eq, not_false_eq_true, if_true, decide_True, List.filter_cons_of_pos,
        List.map_cons, List.sum_cons, add_assoc]

/-- C4. With vectors of equal length and in-range entries in `presentFeats`,
`getWeightedL1Norm` does not fail and returns the sum of
`weight[v] * |p1[v] - p2[v]|` over the entries `v` of `presentFeats` with
`p2[v] != 0`; nothing else contributes. -/
theorem getWeightedL1Norm_eq_sum (p1 p2 weight : List ℚ) (presentFeats : List Int)
    (h1 : p1.length = p2.length) (h2 : weight.length = p2.length)
    (hin : ∀ v ∈ presentFeats, 0 ≤ v ∧ v < p2.length) :
    getWeightedL1Norm p1 p2 weight presentFeats
      = Except.ok (((presentFeats.filter (fun v => p2.getD v.toNat 0 ≠ 0)).map
          (fun v => weight.getD v.toNat 0 * |p1.getD v.toNat 0 - p2.getD v.toNat 0|)).sum) := by
  rw [getWeightedL1Norm_eq_foldlM, foldlM_l1Step_inRange p1 p2 weight h1 h2 _ 0 hin, zero_add]
  rfl

theorem getWeightedL1Norm_eq_sum_witness :
    getWeightedL1Norm [3, 0, 5] [1, 7, 0] [2, 1, 1] [0, 2, 0]
      = Except.ok (((([0, 2, 0] : List Int).filter
          (fun v => ([1, 7, 0] : List ℚ).getD v.toNat 0 ≠ 0)).map
          (fun v => ([2, 1, 1] : List ℚ).getD v.toNat 0
            * |([3, 0, 5] : List ℚ).getD v.toNat 0 - ([1, 7, 0] : List ℚ).getD v.toNat 0|)).sum) :=
  getWeightedL1Norm_eq_sum [3, 0, 5] [1, 7, 0] [2, 1, 1] [0, 2, 0] rfl rfl (by decide)



/-! ## The present-feature buffer -/

/-- The indices below `n` at which `p` is non-zero, in increasing order. -/
def presentUpTo (p : List ℚ) (n : Nat) : List Int :=
  ((List.range n).filter (fun j => p.getD j 0 ≠ 0)).map Int.ofNat

/-- The list of indices at which `p` is non-zero, in increasing order. -/
def present (p : List ℚ) : List Int := presentUpTo p p.length

/-- The distance that tests both vectors for non-zero at every feature. -/
def naiveDist (p1 p2 weight : List ℚ) (featNum : Nat) : ℚ :=
  ((List.range featNum).map (fun j =>
    if p1.getD j 0 ≠ 0 ∧ p2.getD j 0 ≠ 0
    then weight.getD j 0 * |p1.getD j 0 - p2.getD j 0| else 0)).sum

/-- One loop iteration of `fillPresentFeats`. -/
def presentStep (p : List ℚ) (s : List Int × Nat) (j : Nat) : Run (List Int × Nat) := do
  let x ← getAt p j
  if x ≠ 0 then
    let buf ← setAt s.1 s.2 (j : Int)
    pure (buf, s.2 + 1)
  else
    pure s

theorem fillPresentFeats_eq_foldlM (p : List ℚ) (featNum : Nat) (buf : List Int) :
    fillPresentFeats p featNum buf = (List.range featNum).foldlM (presentStep p) (buf, 0) := rfl

theorem foldlM_range_succ {σ : Type} (f : σ → Nat → Run σ) (s : σ) (n : Nat) :
    (List.range (n + 1)).foldlM f s = ((List.range n).foldlM f s >>= fun t => f t n) := by
  rw [List.range_succ, List.foldlM_append]
  congr 1
  funext t
  cases h : f t n <;> simp [List.foldlM_cons, h]

theorem presentUpTo_succ (p : List ℚ) (n : Nat) :
    presentUpTo p (n + 1)
      = presentUpTo p n ++ (if p.getD n 0 ≠ 0 then [(n : Int)] else []) := by
  unfold presentUpTo
  rw [List.range_succ, List.filter_append, List.map_append]
  by_cases h : p.getD n 0 = 0
  · simp only [h, ne_eq, not_true_eq_false, decide_False, Bool.false_eq_true,
      not_false_eq_true, List.filter_cons_of_neg, List.filter_nil, List.map_nil, if_false]
  · simp only [h, ne_eq, not_false_eq_true, decide_True, List.filter_cons_of_pos,
      List.filter_nil, List.map_cons, List.map_nil, if_true, Int.ofNat_eq_coe]

theorem presentUpTo_length_le (p : List ℚ) (n : Nat) : (presentUpTo p n).length ≤ n := by
  unfold presentUpTo
  rw [List.length_map]
  exact (List.length_filter_le _ _).trans (by simp)

theorem take_succ_set {α : Type} (b : List α) (k : Nat) (x : α) (h : k < b.length) :
    (b.set k x).take (k + 1) = b.take k ++ [x] := by
  induction b generalizing k with
  | nil => simp at h
  | cons y ys ih =>
    cases k with
    | zero => simp
    | succ k =>
      have hk : k < ys.length := by simpa using h
      simp [ih k hk]

/-- The buffer loop stores exactly the non-zero indices of `p` below `n` in the
first `numPresent` slots, whatever the buffer held before. -/
theorem fillPresentFeats_spec (p : List ℚ) (buf : List Int) :
    ∀ n, n ≤ p.length → n ≤ buf.length →
      ∃ b, fillPresentFeats p n buf = Except.ok (b, (presentUpTo p n).length)
        ∧ b.length = buf.length
        ∧ b.take (presentUpTo p n).length = presentUpTo p n := by
  intro n
  induction n with
  | zero =>
    intro _ _
    exact ⟨buf, rfl, rfl, by simp [presentUpTo]⟩
  | succ n ih =>
    intro hp hb
    obtain ⟨b, hrun, hlen, htake⟩ := ih (by omega) (by omega)
    rw [fillPresentFeats_eq_foldlM] at hrun
    rw [fillPresentFeats_eq_foldlM, foldlM_range_succ, hrun, ok_bind, presentUpTo_succ]
    have hk := presentUpTo_length_le p n
    unfold presentStep
    rw [getAt_of_lt p n 0 (by omega), ok_bind]
    by_cases h : p.getD n 0 = 0
    · refine ⟨b, ?_, hlen, ?_⟩
      · simp only [h, ne_eq, not_true_eq_false, if_false, pure_eq_ok, ok_bind,
          List.append_nil]
      · simp only [h, ne_eq, not_true_eq_false, if_false, List.append_nil, htake]
    · refine ⟨b.set (presentUpTo p n).length (n : Int), ?_, ?_, ?_⟩
      · simp only [h, ne_eq, not_false_eq_true, if_true, pure_eq_ok,
          setAt_of_lt b _ (n : Int) (by omega : (presentUpTo p n).length < b.length),
          ok_bind, List.length_append, List.length_singleton]
      · simp [hlen]
      · simp only [h, ne_eq, not_false_eq_true, if_true, List.length_append,
          List.length_singleton]
        rw [take_succ_set b _ _ (by omega), htake]

theorem sum_present_filter (p1 p2 weight : List ℚ) (l : List Nat) :
    (((((l.filter (fun j => p1.getD j 0 ≠ 0)).map Int.ofNat).filter
        (fun v => p2.getD v.toNat 0 ≠ 0)).map (l1Term p1 p2 weight)).sum)
      = (l.map (fun j => if p1.getD j 0 ≠ 0 ∧ p2.getD j 0 ≠ 0
          then weight.getD j 0 * |p1.getD j 0 - p2.getD j 0| else 0)).sum := by
  induction l with
  | nil => rfl
  | cons j js ih =>
    rw [List.map_cons, List.sum_cons, ← ih]
    by_cases h1 : p1.getD j 0 = 0
    · simp only [h1, ne_eq, not_true_eq_false, decide_False, Bool.false_eq_true,
        not_false_eq_true, List.filter_cons_of_neg, false_and, if_false, zero_add]
    · have e : (Int.ofNat j).toNat = j := rfl
      by_cases h2 : p2.getD j 0 = 0
      · simp only [h1, h2, e, ne_eq, not_false_eq_true, decide_True, List.filter_cons_of_pos,
          List.map_cons, List.filter_cons, Int.toNat_ofNat, not_true_eq_false, decide_False,
          Bool.false_eq_true, and_false, if_false, zero_add]
      · simp only [h1, h2, e, ne_eq, not_false_eq_true, decide_True, List.filter_cons_of_pos,
          List.map_cons, List.filter_cons, Int.toNat_ofNat, List.sum_cons, and_self, if_true,
          l1Term]

theorem presentUpTo_inRange (p : List ℚ) (n : Nat) :
    ∀ v ∈ presentUpTo p n, 0 ≤ v ∧ v < (n : Int) := by
  intro v hv
  unfold presentUpTo at hv
  rw [List.mem_map] at hv
  obtain ⟨j, hj, rfl⟩ := hv
  have hjn : j < n := List.mem_range.mp (List.mem_of_mem_filter hj)
  exact ⟨Int.ofNat_nonneg j, Int.ofNat_lt.mpr hjn⟩

/-- The distance over the non-zero indices of `p1` is the naive distance. -/
theorem getWeightedL1Norm_presentUpTo (p1 p2 weight : List ℚ) (featNum : Nat)
    (h1 : p1.length = featNum) (h2 : p2.length = featNum) (hw : weight.length = featNum) :
    getWeightedL1Norm p1 p2 weight (presentUpTo p1 featNum)
      = Except.ok (naiveDist p1 p2 weight featNum) := by
  rw [getWeightedL1Norm_eq_foldlM,
    foldlM_l1Step_inRange p1 p2 weight (by omega) (by omega) _ 0
      (by rw [h2]; exact presentUpTo_inRange p1 featNum), zero_add]
  unfold presentUpTo naiveDist
  rw [sum_present_filter]

/-- C5. The present-feature list that the callers build in the reused buffer
(its first `numPresent` slots, whatever stale entries the buffer `buf` held)
makes `getWeightedL1Norm` return the naive distance that tests both vectors for
non-zero at every feature. -/
theorem getWeightedL1Norm_refines_naive (p1 p2 weight : List ℚ) (buf : List Int)
    (featNum : Nat) (h1 : p1.length = featNum) (h2 : p2.length = featNum)
    (hw : weight.length = featNum) (hbuf : buf.length = featNum) :
    ∃ b numPresent, fillPresentFeats p1 featNum buf = Except.ok (b, numPresent)
      ∧ getWeightedL1Norm p1 p2 weight (b.take numPresent)
          = Except.ok (naiveDist p1 p2 weight featNum) := by
  obtain ⟨b, hrun, _, htake⟩ := fillPresentFeats_spec p1 buf featNum (by omega) (by omega)
  refine ⟨b, _, hrun, ?_⟩
  rw [htake]
  exact getWeightedL1Norm_presentUpTo p1 p2 weight featNum h1 h2 hw

theorem getWeightedL1Norm_refines_naive_witness :
    ∃ b numPresent, fillPresentFeats [3, 0, 5] 3 [2, 1, 0] = Except.ok (b, numPresent)
      ∧ getWeightedL1Norm [3, 0, 5] [1, 7, 2] [2, 1, 1] (b.take numPresent)
          = Except.ok (naiveDist [3, 0, 5] [1, 7, 2] [2, 1, 1] 3) :=
  getWeightedL1Norm_refines_naive [3, 0, 5] [1, 7, 2] [2, 1, 1] [2, 1, 0] 3 rfl rfl rfl rfl


/-! ## Sign, symmetry and boundary cases of the distance -/

theorem l1Step_nonneg (p1 p2 weight : List ℚ) (hw : ∀ w ∈ weight, 0 ≤ w) (d : ℚ) (v : Int)
    (hd : 0 ≤ d) : ∀ r, l1Step p1 p2 weight d v = Except.ok r → 0 ≤ r := by
  intro r hr
  unfold l1Step getIdx getAt at hr
  by_cases h0 : 0 ≤ v
  · simp only [h0, if_true] at hr
    cases e2 : p2[v.toNat]? with
    | none => simp [e2] at hr
    | some b =>
      by_cases hb : b = 0
      · simp [e2, hb] at hr
        rw [← hr]; exact hd
      · cases ew : weight[v.toNat]? with
        | none => simp [e2, hb, ew] at hr
        | some w =>
          cases e1 : p1[v.toNat]? with
          | none => simp [e2, hb, ew, e1] at hr
          | some a =>
            simp [e2, hb, ew, e1] at hr
            have hwn : 0 ≤ w := hw w (List.getElem?_mem ew)
            rw [← hr]
            exact add_nonneg hd (mul_nonneg hwn (abs_nonneg _))
  · simp [h0] at hr

theorem foldlM_l1Step_nonneg (p1 p2 weight : List ℚ) (hw : ∀ w ∈ weight, 0 ≤ w) :
    ∀ (pf : List Int) (d : ℚ), 0 ≤ d →
      ∀ r, pf.foldlM (l1Step p1 p2 weight) d = Except.ok r → 0 ≤ r := by
  intro pf
  induction pf with
  | nil =>
    intro d hd r hr
    simp at hr
    rw [← hr]; exact hd
  | cons v vs ih =>
    intro d hd r hr
    rw [List.foldlM_cons] at hr
    cases hs : l1Step p1 p2 weight d v with
    | error e => rw [hs] at hr; simp at hr
    | ok d1 =>
      rw [hs, ok_bind] at hr
      exact ih d1 (l1Step_nonneg p1 p2 weight hw d v hd d1 hs) r hr

/-- C6 as stated fails: with a negative weight the distance is negative. -/
theorem getWeightedL1Norm_negative_weight :
    ∃ d, getWeightedL1Norm [1] [2] [-1] [0] = Except.ok d ∧ d < 0 :=
  ⟨-1, by decide!, by decide!⟩

/-- The largest finite `float64` value, `(2^53 - 1) * 2^971`. -/
def maxFloat64 : ℚ := (2 ^ 53 - 1) * 2 ^ 971

/-- C6, amended. For every weight vector without a negative entry, all vectors
`p1`, `p2` and any present-feature list at whose entries the difference
`p1[v] - p2[v]` stays within the finite `float64` range, a value returned by
`getWeightedL1Norm` is `>= 0`.  The range condition is the one under which the
sign computed in exact arithmetic is the sign `float64` computes: a difference
that overflows becomes `+Inf`, and `0 * Inf` is `NaN`; with finite differences
every term is a product of two non-negative values. -/
theorem getWeightedL1Norm_nonneg (p1 p2 weight : List ℚ) (presentFeats : List Int)
    (hw : ∀ w ∈ weight, 0 ≤ w)
    (hfin : ∀ v ∈ presentFeats, |p1.getD v.toNat 0 - p2.getD v.toNat 0| ≤ maxFloat64)
    (d : ℚ) (h : getWeightedL1Norm p1 p2 weight presentFeats = Except.ok d) : 0 ≤ d := by
  have _hrange := hfin
  exact foldlM_l1Step_nonneg p1 p2 weight hw presentFeats 0 le_rfl d h

theorem getWeightedL1Norm_nonneg_witness :
    getWeightedL1Norm [3, 0, 5] [1, 7, 2] [2, 0, 1] [0, 2] = Except.ok 7 ∧ (0 : ℚ) ≤ 7 :=
  ⟨by decide!, getWeightedL1Norm_nonneg [3, 0, 5] [1, 7, 2] [2, 0, 1] [0, 2]
    (by decide!) (by decide!) 7 (by decide!)⟩

theorem foldlM_congr_mem {σ β : Type} (f g : σ → β → Run σ) :
    ∀ (l : List β) (s : σ), (∀ v ∈ l, ∀ t, f t v = g t v) → l.foldlM f s = l.foldlM g s := by
  intro l
  induction l with
  | nil => intro s _; rfl
  | cons v vs ih =>
    intro s h
    rw [List.foldlM_cons, List.foldlM_cons, h v (List.mem_cons_self v vs) s]
    congr 1
    funext t
    exact ih t (fun u hu => h u (List.mem_cons_of_mem v hu))

theorem mem_presentUpTo (p : List ℚ) (n : Nat) (v : Int) (hv : v ∈ presentUpTo p n) :
    ∃ j : Nat, v = (j : Int) ∧ j < n ∧ p.getD j 0 ≠ 0 := by
  unfold presentUpTo at hv
  rw [List.mem_map] at hv
  obtain ⟨j, hj, rfl⟩ := hv
  rw [List.mem_filter] at hj
  exact ⟨j, rfl, List.mem_range.mp hj.1, by simpa using hj.2⟩

theorem presentUpTo_congr (p q : List ℚ) (n : Nat)
    (h : ∀ j, p.getD j 0 ≠ 0 ↔ q.getD j 0 ≠ 0) : presentUpTo p n = presentUpTo q n := by
  unfold presentUpTo
  congr 1
  apply List.filter_congr
  intro j _
  exact decide_eq_decide.mpr (h j)

/-- C7. When two vectors of equal length are non-zero at the same indices, the
distance taken from either side over its own present-feature list is the same,
for every weight vector. -/
theorem getWeightedL1Norm_symm (p1 p2 weight : List ℚ) (hlen : p1.length = p2.length)
    (hpat : ∀ j, p1.getD j 0 ≠ 0 ↔ p2.getD j 0 ≠ 0) :
    getWeightedL1Norm p1 p2 weight (present p1)
      = getWeightedL1Norm p2 p1 weight (present p2) := by
  have hpres : present p2 = present p1 := by
    unfold present
    rw [← hlen]
    exact (presentUpTo_congr p1 p2 p1.length hpat).symm
  rw [hpres, getWeightedL1Norm_eq_foldlM, getWeightedL1Norm_eq_foldlM]
  apply foldlM_congr_mem
  intro v hv d
  obtain ⟨j, rfl, hj, hne1⟩ := mem_presentUpTo p1 p1.length v hv
  have hne2 : p2.getD j 0 ≠ 0 := (hpat j).mp hne1
  have e1 : getIdx p1 (j : Int) = Except.ok (p1.getD j 0) := by
    rw [getIdx_natCast]; exact getAt_of_lt p1 j 0 hj
  have e2 : getIdx p2 (j : Int) = Except.ok (p2.getD j 0) := by
    rw [getIdx_natCast]; exact getAt_of_lt p2 j 0 (by omega)
  unfold l1Step
  rw [e1, e2]
  simp only [ok_bind, hne1, hne2, ne_eq, not_false_eq_true, if_true]
  cases getIdx weight (j : Int) with
  | error e => rfl
  | ok w => simp only [ok_bind, pure_eq_ok, abs_sub_comm]

theorem getWeightedL1Norm_symm_witness :
    getWeightedL1Norm [3, 0, 5] [1, 0, 2] [2, 4, -1] (present [3, 0, 5])
      = getWeightedL1Norm [1, 0, 2] [3, 0, 5] [2, 4, -1] (present [1, 0, 2]) :=
  getWeightedL1Norm_symm [3, 0, 5] [1, 0, 2] [2, 4, -1] rfl (by
    intro j
    match j with
    | 0 => decide!
    | 1 => decide!
    | 2 => decide!
    | n + 3 => simp)


theorem getD_eq_zero_of_all_zero (p : List ℚ) (hp : ∀ x ∈ p, x = 0) (j : Nat) :
    p.getD j 0 = 0 := by
  by_cases hj : j < p.length
  · rw [List.getD_eq_getElem p 0 hj]
    exact hp _ (List.getElem_mem hj)
  · exact List.getD_eq_default p 0 (by omega)

theorem presentUpTo_of_all_zero (p : List ℚ) (hp : ∀ x ∈ p, x = 0) (n : Nat) :
    presentUpTo p n = [] := by
  unfold presentUpTo
  rw [List.map_eq_nil_iff, List.filter_eq_nil_iff]
  intro j _
  simp only [getD_eq_zero_of_all_zero p hp j, ne_eq, not_true_eq_false, decide_False,
    Bool.false_eq_true, not_false_eq_true]

theorem foldlM_keep {σ β : Type} (f : σ → β → Run σ) :
    ∀ (l : List β) (s : σ), (∀ v ∈ l, ∀ t, f t v = Except.ok t) →
      l.foldlM f s = Except.ok s := by
  intro l
  induction l with
  | nil => intro s _; rfl
  | cons v vs ih =>
    intro s h
    rw [List.foldlM_cons, h v (List.mem_cons_self v vs) s, ok_bind]
    exact ih s (fun u hu => h u (List.mem_cons_of_mem v hu))

/-- C9. For vectors `p`, `q` of the same length and every weight vector, the
distance from `p` to `q` over the present-feature list of `p` is `0` when `p` is
all-zero (its present-feature list is empty) and when `q` is all-zero. -/
theorem getWeightedL1Norm_zero_vector (p q weight : List ℚ) (hlen : p.length = q.length)
    (h : (∀ x ∈ p, x = 0) ∨ (∀ x ∈ q, x = 0)) :
    getWeightedL1Norm p q weight (present p) = Except.ok 0 := by
  rcases h with hp | hq
  · have he : present p = [] := presentUpTo_of_all_zero p hp p.length
    rw [he]
    rfl
  · rw [getWeightedL1Norm_eq_foldlM]
    apply foldlM_keep
    intro v hv d
    obtain ⟨j, rfl, hj, _⟩ := mem_presentUpTo p p.length v hv
    unfold l1Step
    rw [getIdx_natCast, getAt_of_lt q j 0 (by omega), ok_bind,
      getD_eq_zero_of_all_zero q hq j]
    rfl

theorem getWeightedL1Norm_zero_vector_witness :
    getWeightedL1Norm [4, 0, 9] [0, 0, 0] [2, 3, 1] (present [4, 0, 9]) = Except.ok 0
      ∧ present [4, 0, 9] = [0, 2] :=
  ⟨getWeightedL1Norm_zero_vector [4, 0, 9] [0, 0, 0] [2, 3, 1] rfl (Or.inr (by simp)),
    by decide!⟩


/-! ## The classifier: what `classify` returns -/

/-- C1 (evaluation of the code at the scenario of the specification). On
`XTrain=[[1,0],[0,1]]`, `XTest=[[1,0]]`, `YTrain=[0,1]`, `weight=[1,1]`,
`neighborNum=1` the call returns the empty slice, not `[0]`, and leaves `1` in
`YTrain[0]`. -/
theorem classify_spec_scenario :
    classify [[1, 0], [0, 1]] [[1, 0]] [0, 1] [1, 1] 1 = Except.ok ([], [1, 1]) := by
  decide!

/-- C2 (what the code does instead). Whenever `classify` returns, the returned
slice is empty, whatever the number of test instances. -/
theorem classify_result_empty (xTrain xTest : List (List ℚ)) (yTrain weight : List ℚ)
    (neighborNum : Int) (r : List ℚ × List ℚ)
    (h : classify xTrain xTest yTrain weight neighborNum = Except.ok r) : r.1 = [] := by
  unfold classify at h
  cases h0 : getAt xTrain 0 with
  | error e => rw [h0] at h; simp at h
  | ok row0 =>
    rw [h0] at h
    simp only [ok_bind] at h
    cases hs : xTest.enum.foldlM
        (classifyPoint xTrain weight row0.length neighborNum)
        ⟨List.replicate xTrain.length 0, List.replicate row0.length 0, yTrain⟩ with
    | error e => rw [hs] at h; simp at h
    | ok s =>
      rw [hs] at h
      simp only [ok_bind, pure_eq_ok] at h
      cases h
      rfl

theorem classify_result_empty_witness :
    classify [[1, 0], [0, 1]] [[1, 0], [0, 1]] [0, 1] [1, 1] 2 = Except.ok ([], [1, 1])
      ∧ (([], [1, 1]) : List ℚ × List ℚ).1 = [] :=
  ⟨by decide!, classify_result_empty [[1, 0], [0, 1]] [[1, 0], [0, 1]] [0, 1] [1, 1] 2
    ([], [1, 1]) (by decide!)⟩

/-! ## The learner: the weight vector is never allocated -/

/-- C3 (what the code does instead). For every training set whose first row has
at least one feature, every label vector, round count, `recoPointsNum`, variant
and random source, `wllcc` ends in a runtime panic: the initialisation loop
writes `weight[0]` into the nil slice. -/
theorem wllcc_panics (xTrain : List (List ℚ)) (yTrain : List ℚ) (rounds recoPointsNum : Int)
    (proportional : Bool) (rnd : Nat → ℚ) (row : List ℚ) (rest : List (List ℚ))
    (hx : xTrain = row :: rest) (hrow : row ≠ []) :
    wllcc xTrain yTrain rounds recoPointsNum proportional rnd = Except.error Fault.panic := by
  subst hx
  obtain ⟨x, xs, rfl⟩ := List.exists_cons_of_ne_nil hrow
  unfold wllcc
  by_cases hr : recoPointsNum < 0
  · simp [hr]
  · have h0 : getAt ((x :: xs) :: rest) 0 = Except.ok (x :: xs) := by simp [getAt]
    have hw : (List.range (x :: xs).length).foldlM
        (fun (w : List ℚ) i => setAt w i (rnd i + 1 / 2)) []
        = Except.error Fault.panic := by
      rw [List.length_cons, List.range_succ_eq_map, List.foldlM_cons]
      rfl
    simp only [hr, if_false, h0, hw, ok_bind, error_bind]
    rfl

theorem wllcc_panics_witness :
    wllcc [[1, 0], [0, 1]] [0, 1] 1 1 false (fun _ => 1 / 4) = Except.error Fault.panic :=
  wllcc_panics [[1, 0], [0, 1]] [0, 1] 1 1 false (fun _ => 1 / 4) [1, 0] [[0, 1]] rfl
    (by simp)


/-! ## The weight-increase phase when `totalfd` is zero -/

/-- One loop iteration of `increaseOriginal`. -/
def incOrigStep (badList : List ℚ) (minBadList c1 totalfd : ℚ) (wt : List ℚ) (j : Nat) :
    Run (List ℚ) := do
  let b ← getAt badList j
  if b = minBadList then
    let w ← getAt wt j
    if w > 0 then
      let q ← fdiv c1 totalfd
      setAt wt j (w + q)
    else
      pure wt
  else
    pure wt

/-- One loop iteration of `increaseProportional`. -/
def incPropStep (badList : List ℚ) (minBadList c1 totalfd : ℚ) (weightAverage : Run ℚ)
    (wt : List ℚ) (j : Nat) : Run (List ℚ) := do
  let b ← getAt badList j
  if b = minBadList then
    let w ← getAt wt j
    if w > 0 then
      let q ← fdiv c1 totalfd
      let avg ← weightAverage
      let r ← fdiv w avg
      setAt wt j (w + q * r)
    else
      pure wt
  else
    pure wt

theorem increaseOriginal_eq_foldlM (featNum : Nat) (badList : List ℚ)
    (minBadList c1 totalfd : ℚ) (weight : List ℚ) :
    increaseOriginal featNum badList minBadList c1 totalfd weight
      = (List.range featNum).foldlM (incOrigStep badList minBadList c1 totalfd) weight := rfl

theorem increaseProportional_eq_foldlM (featNum : Nat) (badList : List ℚ)
    (minBadList c1 totalfd : ℚ) (weight : List ℚ) :
    increaseProportional featNum badList minBadList c1 totalfd weight
      = (weightTotalOf featNum badList minBadList weight >>= fun weightTotal =>
          (List.range featNum).foldlM
            (incPropStep badList minBadList c1 totalfd (fdiv weightTotal (featNum : ℚ)))
            weight) := rfl

theorem foldlM_fixed {σ β : Type} (f : σ → β → Run σ) (s : σ) :
    ∀ l : List β, (∀ v ∈ l, f s v = Except.ok s) → l.foldlM f s = Except.ok s := by
  intro l
  induction l with
  | nil => intro _; rfl
  | cons v vs ih =>
    intro h
    rw [List.foldlM_cons, h v (List.mem_cons_self v vs), ok_bind]
    exact ih (fun u hu => h u (List.mem_cons_of_mem v hu))

theorem foldlM_fault {σ β : Type} (f : σ → β → Run σ) (s : σ) (e : Fault) :
    ∀ l : List β, (∀ v ∈ l, f s v = Except.ok s ∨ f s v = Except.error e) →
      (∃ v ∈ l, f s v = Except.error e) → l.foldlM f s = Except.error e := by
  intro l
  induction l with
  | nil => intro _ h; obtain ⟨v, hv, _⟩ := h; simp at hv
  | cons v vs ih =>
    intro hall hex
    rw [List.foldlM_cons]
    rcases hall v (List.mem_cons_self v vs) with hok | herr
    · rw [hok, ok_bind]
      apply ih (fun u hu => hall u (List.mem_cons_of_mem v hu))
      obtain ⟨u, hu, hue⟩ := hex
      rcases List.mem_cons.mp hu with rfl | hu
      · rw [hok] at hue; cases hue
      · exact ⟨u, hu, hue⟩
    · rw [herr]; rfl

theorem foldlM_total {σ β : Type} (f : σ → β → Run σ) :
    ∀ (l : List β) (s : σ), (∀ v ∈ l, ∀ t, ∃ u, f t v = Except.ok u) →
      ∃ r, l.foldlM f s = Except.ok r := by
  intro l
  induction l with
  | nil => intro s _; exact ⟨s, rfl⟩
  | cons v vs ih =>
    intro s h
    obtain ⟨u, hu⟩ := h v (List.mem_cons_self v vs) s
    rw [List.foldlM_cons, hu, ok_bind]
    exact ih u (fun w hw => h w (List.mem_cons_of_mem v hw))

/-- A feature that the increase phase updates: `badList[j] == minBadList` and
`weight[j] > 0`. -/
def incTarget (badList : List ℚ) (minBadList : ℚ) (weight : List ℚ) (j : Nat) : Prop :=
  badList.getD j 0 = minBadList ∧ 0 < weight.getD j 0

theorem incOrigStep_totalfd_zero (badList : List ℚ) (minBadList c1 : ℚ) (wt : List ℚ)
    (j : Nat) (hb : j < badList.length) (hw : j < wt.length) :
    (¬ incTarget badList minBadList wt j →
        incOrigStep badList minBadList c1 0 wt j = Except.ok wt)
      ∧ (incTarget badList minBadList wt j →
        incOrigStep badList minBadList c1 0 wt j = Except.error Fault.divByZero) := by
  unfold incOrigStep incTarget
  rw [getAt_of_lt badList j 0 hb, getAt_of_lt wt j 0 hw]
  by_cases h1 : badList.getD j 0 = minBadList
  · by_cases h2 : 0 < wt.getD j 0
    · simp only [ok_bind, h1, h2, if_true, gt_iff_lt, and_self, not_true_eq_false,
        false_implies, true_implies, true_and, fdiv, throw_eq_error, error_bind]
    · simp only [ok_bind, h1, h2, if_true, if_false, gt_iff_lt, and_false,
        not_false_eq_true, true_implies, false_implies, and_true, pure_eq_ok]
  · simp only [ok_bind, h1, if_false, false_and, not_false_eq_true, true_implies,
      false_implies, and_true, pure_eq_ok]

theorem incPropStep_totalfd_zero (badList : List ℚ) (minBadList c1 : ℚ) (avg : Run ℚ)
    (wt : List ℚ) (j : Nat) (hb : j < badList.length) (hw : j < wt.length) :
    (¬ incTarget badList minBadList wt j →
        incPropStep badList minBadList c1 0 avg wt j = Except.ok wt)
      ∧ (incTarget badList minBadList wt j →
        incPropStep badList minBadList c1 0 avg wt j = Except.error Fault.divByZero) := by
  unfold incPropStep incTarget
  rw [getAt_of_lt badList j 0 hb, getAt_of_lt wt j 0 hw]
  by_cases h1 : badList.getD j 0 = minBadList
  · by_cases h2 : 0 < wt.getD j 0
    · simp only [ok_bind, h1, h2, if_true, gt_iff_lt, and_self, not_true_eq_false,
        false_implies, true_implies, true_and, fdiv, throw_eq_error, error_bind]
    · simp only [ok_bind, h1, h2, if_true, if_false, gt_iff_lt, and_false,
        not_false_eq_true, true_implies, false_implies, and_true, pure_eq_ok]
  · simp only [ok_bind, h1, if_false, false_and, not_false_eq_true, true_implies,
      false_implies, and_true, pure_eq_ok]

theorem weightTotalOf_ok (featNum : Nat) (badList : List ℚ) (minBadList : ℚ)
    (weight : List ℚ) (hb : badList.length = featNum) (hw : weight.length = featNum) :
    ∃ t, weightTotalOf featNum badList minBadList weight = Except.ok t := by
  unfold weightTotalOf
  apply foldlM_total
  intro j hj t
  have hjn : j < featNum := List.mem_range.mp hj
  rw [getAt_of_lt badList j 0 (by omega), getAt_of_lt weight j 0 (by omega)]
  by_cases h1 : badList.getD j 0 = minBadList
  · by_cases h2 : weight.getD j 0 > 0
    · exact ⟨t + weight.getD j 0, by simp only [ok_bind, h1, h2, if_true, pure_eq_ok]⟩
    · exact ⟨t, by simp only [ok_bind, h1, h2, if_true, if_false, pure_eq_ok]⟩
  · exact ⟨t, by simp only [ok_bind, h1, if_false, pure_eq_ok]⟩

/-- C10 as stated fails. In the round for training point 0 of
`XTrain=[[1,0],[0,1]]`, `YTrain=[0,1]`, `recoPointsNum=1` with weights `[1,1]`
the statistics are `badList=[1,0]`, `featDist=[0,0]`, `minBadList=0`; after the
decrease phase `totalfd` is zero while feature 1 has `badList[1] == minBadList`
and `weight[1] > 0`, and both variants of the increase phase divide by zero
instead of leaving the weights as they are. -/
theorem increasePhase_divides_by_zero :
    featureStats [[1, 0], [0, 1]] [1, 0] [1, 1] [0] [0] 2 [0, 0] [0, 0]
        = Except.ok ([1, 0], [0, 0])
      ∧ getMin [1, 0] = (0, 0)
      ∧ decreasePhase 2 [1, 0] [0, 0] 0 1 1 [1, 1] = Except.ok ([247 / 250, 1], 0)
      ∧ totalFeatDist 2 [1, 0] [0, 0] 0 [247 / 250, 1] = Except.ok 0
      ∧ increasePhase false 2 [1, 0] [0, 0] 0 0 [247 / 250, 1]
          = Except.error Fault.divByZero
      ∧ increasePhase true 2 [1, 0] [0, 0] 0 0 [247 / 250, 1]
          = Except.error Fault.divByZero
      ∧ (∀ proportional,
          wllccRound [[1, 0], [0, 1]] 1 proportional 2 0 [1, 0] [0, 0] 1 [0] [1]
              ⟨[1, 1], [0, 0], [0], [0], [0, 0], [0, 0]⟩
            = Except.error Fault.divByZero) := by
  refine ⟨by decide!, by decide!, by decide!, by decide!, by decide!, by decide!, ?_⟩
  intro proportional
  cases proportional <;> decide!

/-- C10, amended. In a round in which `totalfd` is zero, the weight-increase
phase is a no-op (no division is performed, every weight keeps the value it had
after the decrease phase) in both variants when no feature `j` has
`badList[j] == minBadList` and `weight[j] > 0`; when some feature does, the
unguarded code divides `c1` by the zero `totalfd` in both variants. -/
theorem increasePhase_totalfd_zero (proportional : Bool) (featNum : Nat)
    (badList featDist weight : List ℚ) (minBadList c1 : ℚ)
    (hb : badList.length = featNum) (hw : weight.length = featNum)
    (ht : totalFeatDist featNum badList featDist minBadList weight = Except.ok 0) :
    ((∀ j, j < featNum → ¬ incTarget badList minBadList weight j) →
        increasePhase proportional featNum badList featDist minBadList c1 weight
          = Except.ok weight)
      ∧ ((∃ j, j < featNum ∧ incTarget badList minBadList weight j) →
        increasePhase proportional featNum badList featDist minBadList c1 weight
          = Except.error Fault.divByZero) := by
  have hrange : ∀ j ∈ List.range featNum, j < badList.length ∧ j < weight.length := by
    intro j hj
    have := List.mem_range.mp hj
    omega
  obtain ⟨wtot, hwtot⟩ := weightTotalOf_ok featNum badList minBadList weight hb hw
  unfold increasePhase
  rw [ht, ok_bind, increaseOriginal_eq_foldlM, increaseProportional_eq_foldlM, hwtot, ok_bind]
  constructor
  · intro hno
    cases proportional
    · simp only [Bool.false_eq_true, if_false]
      apply foldlM_fixed
      intro j hj
      exact (incOrigStep_totalfd_zero badList minBadList c1 weight j
        (hrange j hj).1 (hrange j hj).2).1 (hno j (List.mem_range.mp hj))
    · simp only [if_true]
      apply foldlM_fixed
      intro j hj
      exact (incPropStep_totalfd_zero badList minBadList c1 _ weight j
        (hrange j hj).1 (hrange j hj).2).1 (hno j (List.mem_range.mp hj))
  · intro hex
    obtain ⟨j0, hj0, ht0⟩ := hex
    cases proportional
    · simp only [Bool.false_eq_true, if_false]
      apply foldlM_fault
      · intro j hj
        have hs := incOrigStep_totalfd_zero badList minBadList c1 weight j
          (hrange j hj).1 (hrange j hj).2
        by_cases hc : incTarget badList minBadList weight j
        · exact Or.inr (hs.2 hc)
        · exact Or.inl (hs.1 hc)
      · exact ⟨j0, List.mem_range.mpr hj0,
          (incOrigStep_totalfd_zero badList minBadList c1 weight j0
            (by omega) (by omega)).2 ht0⟩
    · simp only [if_true]
      apply foldlM_fault
      · intro j hj
        have hs := incPropStep_totalfd_zero badList minBadList c1
          (fdiv wtot (featNum : ℚ)) weight j (hrange j hj).1 (hrange j hj).2
        by_cases hc : incTarget badList minBadList weight j
        · exact Or.inr (hs.2 hc)
        · exact Or.inl (hs.1 hc)
      · exact ⟨j0, List.mem_range.mpr hj0,
          (incPropStep_totalfd_zero badList minBadList c1 _ weight j0
            (by omega) (by omega)).2 ht0⟩

theorem increasePhase_totalfd_zero_witness :
    (totalFeatDist 2 [1, 0] [0, 0] 0 [247 / 250, 1] = Except.ok 0
        ∧ increasePhase true 2 [1, 0] [0, 0] 0 0 [247 / 250, 1]
            = Except.error Fault.divByZero)
      ∧ (totalFeatDist 2 [1, 2] [3, 4] 0 [1, 1] = Except.ok 0
        ∧ increasePhase false 2 [1, 2] [3, 4] 0 5 [1, 1] = Except.ok [1, 1]) :=
  ⟨⟨by decide!,
      (increasePhase_totalfd_zero true 2 [1, 0] [0, 0] [247 / 250, 1] 0 0 rfl rfl
        (by decide!)).2 ⟨1, by decide, And.intro (by decide!) (by decide!)⟩⟩,
    ⟨by decide!,
      (increasePhase_totalfd_zero false 2 [1, 2] [3, 4] [1, 1] 0 5 rfl rfl
        (by decide!)).1 (fun j hj h => by
          have hj2 : j = 0 ∨ j = 1 := by omega
          rcases hj2 with rfl | rfl
          · exact absurd h.1 (by decide!)
          · exact absurd h.1 (by decide!))⟩⟩


/-! ## Runs that return, and runs that can only panic -/

/-- The run returned a value. -/
def IsOk {α : Type} (x : Run α) : Prop := ∃ a, x = Except.ok a

/-- The only fault the run can end in is a runtime panic. -/
def OnlyPanics {α : Type} (x : Run α) : Prop := ∀ e, x = Except.error e → e = Fault.panic

theorem isOk_bind_iff {α β : Type} (x : Run α) (f : α → Run β) :
    IsOk (x >>= f) ↔ ∃ a, x = Except.ok a ∧ IsOk (f a) := by
  cases x with
  | error e =>
    constructor
    · rintro ⟨b, hb⟩; cases hb
    · rintro ⟨a, ha, _⟩; cases ha
  | ok a =>
    constructor
    · intro h; exact ⟨a, rfl, h⟩
    · rintro ⟨a1, ha, h⟩; cases ha; exact h

theorem onlyPanics_ok {α : Type} (a : α) : OnlyPanics (Except.ok a : Run α) := by
  intro e h; cases h

theorem onlyPanics_panic {α : Type} : OnlyPanics (Except.error Fault.panic : Run α) := by
  intro e h; cases h; rfl

theorem onlyPanics_bind {α β : Type} (x : Run α) (f : α → Run β) (hx : OnlyPanics x)
    (hf : ∀ a, OnlyPanics (f a)) : OnlyPanics (x >>= f) := by
  cases x with
  | error e => intro e1 h; cases h; exact hx e rfl
  | ok a => exact hf a

theorem onlyPanics_foldlM {σ β : Type} (f : σ → β → Run σ)
    (hf : ∀ s v, OnlyPanics (f s v)) : ∀ (l : List β) (s : σ), OnlyPanics (l.foldlM f s) := by
  intro l
  induction l with
  | nil => intro s; exact onlyPanics_ok s
  | cons v vs ih =>
    intro s
    rw [List.foldlM_cons]
    exact onlyPanics_bind _ _ (hf s v) (fun t => ih t)

theorem onlyPanics_getAt {α : Type} (xs : List α) (i : Nat) : OnlyPanics (getAt xs i) := by
  unfold getAt
  cases xs[i]? with
  | none => exact onlyPanics_panic
  | some x => exact onlyPanics_ok x

theorem onlyPanics_setAt {α : Type} (xs : List α) (i : Nat) (x : α) :
    OnlyPanics (setAt xs i x) := by
  unfold setAt
  split
  · exact onlyPanics_ok _
  · exact onlyPanics_panic

theorem onlyPanics_getIdx {α : Type} (xs : List α) (v : Int) : OnlyPanics (getIdx xs v) := by
  unfold getIdx
  split
  · exact onlyPanics_getAt xs v.toNat
  · exact onlyPanics_panic

theorem onlyPanics_getWeightedL1Norm (p1 p2 weight : List ℚ) (pf : List Int) :
    OnlyPanics (getWeightedL1Norm p1 p2 weight pf) := by
  rw [getWeightedL1Norm_eq_foldlM]
  apply onlyPanics_foldlM
  intro d v
  unfold l1Step
  refine onlyPanics_bind _ _ (onlyPanics_getIdx _ _) (fun b => ?_)
  split
  · refine onlyPanics_bind _ _ (onlyPanics_getIdx _ _) (fun w => ?_)
    refine onlyPanics_bind _ _ (onlyPanics_getIdx _ _) (fun a => ?_)
    exact onlyPanics_ok _
  · exact onlyPanics_ok _

theorem onlyPanics_fillPresentFeats (p : List ℚ) (n : Nat) (buf : List Int) :
    OnlyPanics (fillPresentFeats p n buf) := by
  rw [fillPresentFeats_eq_foldlM]
  apply onlyPanics_foldlM
  intro s j
  unfold presentStep
  refine onlyPanics_bind _ _ (onlyPanics_getAt _ _) (fun x => ?_)
  split
  · refine onlyPanics_bind _ _ (onlyPanics_setAt _ _ _) (fun b => ?_)
    exact onlyPanics_ok _
  · exact onlyPanics_ok _

theorem onlyPanics_fillDistList (p weight : List ℚ) (xTrain : List (List ℚ))
    (pf : List Int) (k : Nat) (dl : List ℚ) :
    OnlyPanics (fillDistList p weight xTrain pf k dl) := by
  unfold fillDistList
  apply onlyPanics_foldlM
  intro s jp
  exact onlyPanics_bind _ _ (onlyPanics_getWeightedL1Norm _ _ _ _)
    (fun d => onlyPanics_setAt _ _ _)

theorem onlyPanics_nearestLoop (i : Nat) (maxVal : ℚ) :
    ∀ (n : Nat) (dl yT : List ℚ), OnlyPanics (nearestLoop i maxVal n dl yT) := by
  intro n
  induction n with
  | zero => intro dl yT; exact onlyPanics_ok _
  | succ n ih =>
    intro dl yT
    unfold nearestLoop
    refine onlyPanics_bind _ _ (onlyPanics_getAt _ _) (fun y => ?_)
    split
    · refine onlyPanics_bind _ _ (onlyPanics_setAt _ _ _) (fun b => ?_)
      exact onlyPanics_ok _
    · exact onlyPanics_bind _ _ (onlyPanics_setAt _ _ _) (fun b => ih _ _)

theorem onlyPanics_classifyPoint (xTrain : List (List ℚ)) (weight : List ℚ) (featNum : Nat)
    (neighborNum : Int) (s : ClassifyState) (ip : Nat × List ℚ) :
    OnlyPanics (classifyPoint xTrain weight featNum neighborNum s ip) := by
  unfold classifyPoint
  refine onlyPanics_bind _ _ (onlyPanics_fillPresentFeats _ _ _) (fun pf => ?_)
  refine onlyPanics_bind _ _ (onlyPanics_fillDistList _ _ _ _ _ _) (fun dl => ?_)
  refine onlyPanics_bind _ _ (onlyPanics_nearestLoop _ _ _ _ _) (fun r => ?_)
  refine onlyPanics_bind _ _ (onlyPanics_setAt _ _ _) (fun y => ?_)
  exact onlyPanics_ok _


/-! ## When one iteration of `classify` returns -/

theorem getMin_foldl_index (l : List ℚ) :
    ∀ (k : Nat) (r : Nat × ℚ),
      ((l.enumFrom k).foldl (fun r iv => if iv.2 < r.2 then (iv.1, iv.2) else r) r).1 = r.1
      ∨ (k ≤ ((l.enumFrom k).foldl
              (fun r iv => if iv.2 < r.2 then (iv.1, iv.2) else r) r).1
          ∧ ((l.enumFrom k).foldl
              (fun r iv => if iv.2 < r.2 then (iv.1, iv.2) else r) r).1 < k + l.length) := by
  induction l with
  | nil => intro k r; exact Or.inl rfl
  | cons x xs ih =>
    intro k r
    rw [List.enumFrom_cons, List.foldl_cons, List.length_cons]
    by_cases hx : x < r.2
    · simp only [hx, if_true]
      rcases ih (k + 1) (k, x) with h | h
      · right; rw [h]; simp
      · right; omega
    · simp only [hx, if_false]
      rcases ih (k + 1) r with h | h
      · exact Or.inl h
      · right; omega

/-- The index returned by `getMin` is a position of a non-empty list. -/
theorem getMin_fst_lt (dl : List ℚ) (h : dl ≠ []) : (getMin dl).1 < dl.length := by
  have hpos : 0 < dl.length := List.length_pos.mpr h
  unfold getMin
  rw [List.enum]
  rcases getMin_foldl_index dl 0 (0, 0) with h0 | h0
  · rw [h0]; exact hpos
  · omega

theorem nearestLoop_succ (i : Nat) (maxVal : ℚ) (n : Nat) (dl yT : List ℚ) :
    nearestLoop i maxVal (n + 1) dl yT
      = (getAt yT (getMin dl).1 >>= fun y =>
          if y = 0 then (setAt yT i 0 >>= fun yT1 => Except.ok (dl, yT1))
          else (setAt dl (getMin dl).1 maxVal >>= fun dl1 =>
            nearestLoop i maxVal n dl1 yT)) := rfl

theorem nearestLoop_result (i : Nat) (maxVal : ℚ) :
    ∀ (n : Nat) (dl yT : List ℚ) (r : List ℚ × List ℚ),
      nearestLoop i maxVal n dl yT = Except.ok r →
        r.1.length = dl.length ∧ r.2.length = yT.length ∧ r.2.set i 1 = yT.set i 1 := by
  intro n
  induction n with
  | zero =>
    intro dl yT r h
    unfold nearestLoop at h
    cases h
    exact ⟨rfl, rfl, rfl⟩
  | succ n ih =>
    intro dl yT r h
    rw [nearestLoop_succ] at h
    cases hy : getAt yT (getMin dl).1 with
    | error e => rw [hy] at h; cases h
    | ok y =>
      rw [hy] at h
      simp only [ok_bind] at h
      by_cases hy0 : y = 0
      · simp only [hy0, if_true] at h
        unfold setAt at h
        by_cases hi : i < yT.length
        · simp only [hi, if_true, pure_eq_ok, ok_bind] at h
          cases h
          exact ⟨rfl, by simp, by simp⟩
        · simp only [hi, if_false, throw_eq_error, error_bind] at h
          cases h
      · simp only [hy0, if_false] at h
        cases hs : setAt dl (getMin dl).1 maxVal with
        | error e => rw [hs] at h; cases h
        | ok dl1 =>
          rw [hs, ok_bind] at h
          have hlen : dl1.length = dl.length := by
            unfold setAt at hs
            split at hs
            · cases hs; simp
            · cases hs
          obtain ⟨h1, h2, h3⟩ := ih dl1 yT r h
          exact ⟨by omega, h2, h3⟩

theorem nearestLoop_isOk (i : Nat) (maxVal : ℚ) :
    ∀ (n : Nat) (dl yT : List ℚ), dl ≠ [] → dl.length ≤ yT.length → i < yT.length →
      IsOk (nearestLoop i maxVal n dl yT) := by
  intro n
  induction n with
  | zero => intro dl yT _ _ _; exact ⟨(dl, yT), rfl⟩
  | succ n ih =>
    intro dl yT hne hle hi
    have hm := getMin_fst_lt dl hne
    rw [nearestLoop_succ, getAt_of_lt yT (getMin dl).1 0 (by omega)]
    simp only [ok_bind]
    by_cases hy0 : yT.getD (getMin dl).1 0 = 0
    · simp only [hy0, if_true, setAt_of_lt yT i 0 hi, ok_bind]
      exact ⟨_, rfl⟩
    · simp only [hy0, if_false, setAt_of_lt dl (getMin dl).1 maxVal hm, ok_bind]
      apply ih
      · intro hnil
        exact hne ((List.set_eq_nil_iff _ _).mp hnil)
      · simp; exact hle
      · exact hi

theorem fillDistList_enumFrom (g : List ℚ → Run ℚ) :
    ∀ (rows : List (List ℚ)) (k : Nat) (dl : List ℚ), k + rows.length ≤ dl.length →
      (IsOk ((rows.enumFrom k).foldlM (fun dl jp => g jp.2 >>= fun d => setAt dl jp.1 d) dl)
          ↔ ∀ row ∈ rows, IsOk (g row))
        ∧ ∀ r, (rows.enumFrom k).foldlM
            (fun dl jp => g jp.2 >>= fun d => setAt dl jp.1 d) dl = Except.ok r →
          r.length = dl.length := by
  intro rows
  induction rows with
  | nil =>
    intro k dl _
    refine ⟨⟨fun _ row hrow => by simp at hrow, fun _ => ⟨dl, rfl⟩⟩, ?_⟩
    intro r hr
    cases hr
    rfl
  | cons row rows ih =>
    intro k dl hk
    rw [List.length_cons] at hk
    rw [List.enumFrom_cons, List.foldlM_cons]
    cases hg : g row with
    | error e =>
      refine ⟨⟨?_, ?_⟩, ?_⟩
      · rintro ⟨a, ha⟩; simp only [error_bind] at ha; cases ha
      · intro hall
        obtain ⟨d, hd⟩ := hall row (List.mem_cons_self row rows)
        rw [hg] at hd; cases hd
      · intro r hr; simp only [error_bind] at hr; cases hr
    | ok d =>
      have hset : setAt dl k d = Except.ok (dl.set k d) := setAt_of_lt dl k d (by omega)
      simp only [ok_bind, hset]
      obtain ⟨ih1, ih2⟩ := ih (k + 1) (dl.set k d) (by simp; omega)
      refine ⟨⟨?_, ?_⟩, ?_⟩
      · intro hok r hr
        rcases List.mem_cons.mp hr with rfl | hr
        · exact ⟨d, hg⟩
        · exact ih1.mp hok r hr
      · intro hall
        exact ih1.mpr (fun r hr => hall r (List.mem_cons_of_mem row hr))
      · intro r hr
        have := ih2 r hr
        simpa using this

theorem fillDistList_isOk_iff (p weight : List ℚ) (xTrain : List (List ℚ)) (pf : List Int)
    (k : Nat) (dl : List ℚ) (hlen : xTrain.length ≤ dl.length) :
    (IsOk (fillDistList p weight xTrain pf k dl)
        ↔ ∀ row ∈ xTrain, IsOk (getWeightedL1Norm p row weight (pf.take k)))
      ∧ ∀ r, fillDistList p weight xTrain pf k dl = Except.ok r → r.length = dl.length := by
  unfold fillDistList
  rw [List.enum]
  exact fillDistList_enumFrom (fun row => getWeightedL1Norm p row weight (pf.take k))
    xTrain 0 dl (by omega)

theorem fillPresentFeats_isOk_iff (p : List ℚ) (buf : List Int) (n : Nat)
    (hn : n ≤ buf.length) : IsOk (fillPresentFeats p n buf) ↔ n ≤ p.length := by
  constructor
  · intro hok
    cases n with
    | zero => exact Nat.zero_le _
    | succ n =>
      rw [fillPresentFeats_eq_foldlM, foldlM_range_succ, isOk_bind_iff] at hok
      obtain ⟨t, _, ht⟩ := hok
      unfold presentStep at ht
      by_contra hlt
      rw [getAt_of_le p n (by omega)] at ht
      obtain ⟨a, ha⟩ := ht
      cases ha
  · intro hp
    obtain ⟨b, hb, _⟩ := fillPresentFeats_spec p buf n hp hn
    exact ⟨_, hb⟩


/-- The buffers and the label slice have the sizes `classify` gives them. -/
def StateFits (xTrain : List (List ℚ)) (featNum : Nat) (s : ClassifyState) : Prop :=
  s.distList.length = xTrain.length ∧ s.presentFeats.length = featNum
    ∧ s.yTrain.length = xTrain.length

/-- The conditions under which the iteration for test instance `p` at position
`i` does not panic: `p` has all `featNum` features, every distance to a training
row can be computed, and slot `i` of the label slice exists. -/
def PointOk (xTrain : List (List ℚ)) (weight : List ℚ) (featNum i : Nat) (p : List ℚ) :
    Prop :=
  featNum ≤ p.length
    ∧ (∀ row ∈ xTrain, IsOk (getWeightedL1Norm p row weight (presentUpTo p featNum)))
    ∧ i < xTrain.length

theorem classifyPoint_eq (xTrain : List (List ℚ)) (weight : List ℚ) (featNum : Nat)
    (neighborNum : Int) (s : ClassifyState) (ip : Nat × List ℚ) :
    classifyPoint xTrain weight featNum neighborNum s ip
      = (fillPresentFeats ip.2 featNum s.presentFeats >>= fun pf =>
          fillDistList ip.2 weight xTrain pf.1 pf.2 s.distList >>= fun dl =>
          nearestLoop ip.1 (getMax dl).2 neighborNum.toNat dl s.yTrain >>= fun r =>
          setAt r.2 ip.1 1 >>= fun y => Except.ok ⟨r.1, pf.1, y⟩) := rfl

theorem classifyPoint_ok_of_pointOk (xTrain : List (List ℚ)) (weight : List ℚ)
    (featNum : Nat) (neighborNum : Int) (s : ClassifyState) (i : Nat) (p : List ℚ)
    (hne : xTrain ≠ []) (hs : StateFits xTrain featNum s)
    (hp : PointOk xTrain weight featNum i p) :
    ∃ t, classifyPoint xTrain weight featNum neighborNum s (i, p) = Except.ok t
      ∧ StateFits xTrain featNum t ∧ t.yTrain = s.yTrain.set i 1 := by
  obtain ⟨hs1, hs2, hs3⟩ := hs
  obtain ⟨hp1, hp2, hp3⟩ := hp
  obtain ⟨b, hb, hblen, htake⟩ := fillPresentFeats_spec p s.presentFeats featNum hp1 (by omega)
  have hd := fillDistList_isOk_iff p weight xTrain b (presentUpTo p featNum).length
    s.distList (by omega)
  rw [htake] at hd
  obtain ⟨dl, hdl⟩ := hd.1.mpr hp2
  have hdlen : dl.length = s.distList.length := hd.2 dl hdl
  have hpos : 0 < xTrain.length := List.length_pos.mpr hne
  have hdne : dl ≠ [] := by
    intro hnil
    rw [hnil] at hdlen
    simp at hdlen
    omega
  obtain ⟨r, hr⟩ := nearestLoop_isOk i (getMax dl).2 neighborNum.toNat dl s.yTrain hdne
    (by omega) (by omega)
  obtain ⟨hr1, hr2, hr3⟩ := nearestLoop_result i (getMax dl).2 neighborNum.toNat dl s.yTrain r hr
  refine ⟨⟨r.1, b, r.2.set i 1⟩, ?_, ⟨by simp only; omega, by simp only; omega, by simp; omega⟩,
    hr3⟩
  rw [classifyPoint_eq]
  simp only [hb, ok_bind, hdl, hr, setAt_of_lt r.2 i 1 (by omega : i < r.2.length)]

theorem pointOk_of_classifyPoint_isOk (xTrain : List (List ℚ)) (weight : List ℚ)
    (featNum : Nat) (neighborNum : Int) (s : ClassifyState) (i : Nat) (p : List ℚ)
    (hs : StateFits xTrain featNum s)
    (hok : IsOk (classifyPoint xTrain weight featNum neighborNum s (i, p))) :
    PointOk xTrain weight featNum i p := by
  obtain ⟨hs1, hs2, hs3⟩ := hs
  rw [classifyPoint_eq, isOk_bind_iff] at hok
  obtain ⟨pf, hpf, hok⟩ := hok
  have hp1 : featNum ≤ p.length :=
    (fillPresentFeats_isOk_iff p s.presentFeats featNum (by omega)).mp ⟨pf, hpf⟩
  obtain ⟨b, hb, hblen, htake⟩ := fillPresentFeats_spec p s.presentFeats featNum hp1 (by omega)
  have hpfeq : pf = (b, (presentUpTo p featNum).length) := by
    have : Except.ok pf = (Except.ok (b, (presentUpTo p featNum).length) : Run _) := by
      rw [← hpf, ← hb]
    cases this
    rfl
  subst hpfeq
  rw [isOk_bind_iff] at hok
  obtain ⟨dl, hdl, hok⟩ := hok
  have hd := fillDistList_isOk_iff p weight xTrain b (presentUpTo p featNum).length
    s.distList (by omega)
  rw [htake] at hd
  have hp2 := hd.1.mp ⟨dl, hdl⟩
  rw [isOk_bind_iff] at hok
  obtain ⟨r, hr, hok⟩ := hok
  obtain ⟨hr1, hr2, hr3⟩ := nearestLoop_result i (getMax dl).2 neighborNum.toNat dl s.yTrain r hr
  rw [isOk_bind_iff] at hok
  obtain ⟨y, hy, _⟩ := hok
  have hi : i < r.2.length := by
    unfold setAt at hy
    by_contra hlt
    simp only [hlt, if_false] at hy
    cases hy
  exact ⟨hp1, hp2, by omega⟩

theorem classifyPoint_panics_of_not_pointOk (xTrain : List (List ℚ)) (weight : List ℚ)
    (featNum : Nat) (neighborNum : Int) (s : ClassifyState) (i : Nat) (p : List ℚ)
    (hs : StateFits xTrain featNum s) (hp : ¬ PointOk xTrain weight featNum i p) :
    classifyPoint xTrain weight featNum neighborNum s (i, p) = Except.error Fault.panic := by
  cases h : classifyPoint xTrain weight featNum neighborNum s (i, p) with
  | ok t =>
    exact absurd (pointOk_of_classifyPoint_isOk xTrain weight featNum neighborNum s i p hs
      ⟨t, h⟩) hp
  | error e =>
    rw [onlyPanics_classifyPoint xTrain weight featNum neighborNum s (i, p) e h]


/-! ## The whole loop of `classify`, and training order -/

theorem classify_fold (xTrain : List (List ℚ)) (weight : List ℚ) (featNum : Nat)
    (neighborNum : Int) (hne : xTrain ≠ []) :
    ∀ (tests : List (List ℚ)) (k : Nat) (s : ClassifyState), StateFits xTrain featNum s →
      ((∀ ip ∈ tests.enumFrom k, PointOk xTrain weight featNum ip.1 ip.2) →
          ∃ t, (tests.enumFrom k).foldlM
                (classifyPoint xTrain weight featNum neighborNum) s = Except.ok t
            ∧ StateFits xTrain featNum t
            ∧ (∀ m, m < k → t.yTrain[m]? = s.yTrain[m]?)
            ∧ (∀ m, k ≤ m → m < k + tests.length → t.yTrain[m]? = some 1))
        ∧ (¬ (∀ ip ∈ tests.enumFrom k, PointOk xTrain weight featNum ip.1 ip.2) →
          (tests.enumFrom k).foldlM (classifyPoint xTrain weight featNum neighborNum) s
            = Except.error Fault.panic) := by
  intro tests
  induction tests with
  | nil =>
    intro k s hs
    refine ⟨fun _ => ⟨s, rfl, hs, fun _ _ => rfl, ?_⟩, ?_⟩
    · intro m h1 h2
      simp at h2
      omega
    · intro h
      exact absurd (fun ip hip => by simp at hip) h
  | cons p ps ih =>
    intro k s hs
    rw [List.enumFrom_cons, List.foldlM_cons]
    by_cases hp : PointOk xTrain weight featNum k p
    · obtain ⟨s1, hs1, hfit1, hy1⟩ :=
        classifyPoint_ok_of_pointOk xTrain weight featNum neighborNum s k p hne hs hp
      rw [hs1, ok_bind]
      obtain ⟨ihok, iherr⟩ := ih (k + 1) s1 hfit1
      have hk : k < s.yTrain.length := by
        have := hp.2.2
        have := hs.2.2
        omega
      constructor
      · intro hall
        obtain ⟨t, ht, hfit, hlow, hhigh⟩ :=
          ihok (fun ip hip => hall ip (List.mem_cons_of_mem _ hip))
        refine ⟨t, ht, hfit, ?_, ?_⟩
        · intro m hm
          rw [hlow m (by omega), hy1, List.getElem?_set_ne (by omega)]
        · intro m hm1 hm2
          rw [List.length_cons] at hm2
          by_cases hmk : m = k
          · subst hmk
            rw [hlow m (by omega), hy1, List.getElem?_set_self hk]
          · exact hhigh m (by omega) (by omega)
      · intro hnall
        apply iherr
        intro hall
        apply hnall
        intro ip hip
        rcases List.mem_cons.mp hip with rfl | hip
        · exact hp
        · exact hall ip hip
    · rw [classifyPoint_panics_of_not_pointOk xTrain weight featNum neighborNum s k p hs hp]
      constructor
      · intro hall
        exact absurd (hall (k, p) (List.mem_cons_self _ _)) hp
      · intro _
        rfl

/-- What `classify` does on a non-empty training set whose label slice has one
entry per row: it returns the empty slice and leaves `1` in the first
`len(xTest)` label slots when no iteration panics, and panics otherwise. -/
theorem classify_char (row : List ℚ) (rest xTest : List (List ℚ)) (yTrain weight : List ℚ)
    (neighborNum : Int) (hl : (row :: rest).length = yTrain.length) :
    ((∀ ip ∈ xTest.enum, PointOk (row :: rest) weight row.length ip.1 ip.2) →
        ∃ y, classify (row :: rest) xTest yTrain weight neighborNum = Except.ok ([], y)
          ∧ ∀ m, m < xTest.length → y[m]? = some 1)
      ∧ (¬ (∀ ip ∈ xTest.enum, PointOk (row :: rest) weight row.length ip.1 ip.2) →
        classify (row :: rest) xTest yTrain weight neighborNum
          = Except.error Fault.panic) := by
  have h0 : getAt (row :: rest) 0 = Except.ok row := by simp [getAt]
  have hfit : StateFits (row :: rest) row.length
      ⟨List.replicate (row :: rest).length 0, List.replicate row.length 0, yTrain⟩ :=
    ⟨by simp, by simp, hl.symm⟩
  obtain ⟨hok, herr⟩ := classify_fold (row :: rest) weight row.length neighborNum
    (by simp) xTest 0 _ hfit
  unfold classify
  rw [h0]
  simp only [ok_bind, List.enum]
  constructor
  · intro hall
    obtain ⟨t, ht, _, _, hhigh⟩ := hok hall
    refine ⟨t.yTrain, ?_, fun m hm => hhigh m (Nat.zero_le m) (by omega)⟩
    rw [ht]
    rfl
  · intro hnall
    rw [herr hnall]
    rfl

theorem pointOk_perm (xTrain xTrain2 : List (List ℚ)) (weight : List ℚ) (featNum i : Nat)
    (p : List ℚ) (hperm : xTrain2.Perm xTrain) :
    PointOk xTrain2 weight featNum i p ↔ PointOk xTrain weight featNum i p := by
  unfold PointOk
  rw [hperm.length_eq]
  constructor
  · rintro ⟨h1, h2, h3⟩
    exact ⟨h1, fun row hrow => h2 row (hperm.mem_iff.mpr hrow), h3⟩
  · rintro ⟨h1, h2, h3⟩
    exact ⟨h1, fun row hrow => h2 row (hperm.mem_iff.mp hrow), h3⟩

/-- C8. Permuting the training instances together with their labels does not
change what `classify` returns: for training rows of one common length, the two
calls end the same way, return the same slice, and leave equal values in the
label slots written for the test instances. -/
theorem classify_perm_invariant (xTrain xTrain2 xTest : List (List ℚ))
    (yTrain yTrain2 weight : List ℚ) (neighborNum : Int) (featNum : Nat)
    (hl : xTrain.length = yTrain.length) (hl2 : xTrain2.length = yTrain2.length)
    (hperm : (xTrain2.zip yTrain2).Perm (xTrain.zip yTrain))
    (hrows : ∀ row ∈ xTrain, row.length = featNum) :
    Except.map Prod.fst (classify xTrain2 xTest yTrain2 weight neighborNum)
        = Except.map Prod.fst (classify xTrain xTest yTrain weight neighborNum)
      ∧ ∀ r r2, classify xTrain xTest yTrain weight neighborNum = Except.ok r →
          classify xTrain2 xTest yTrain2 weight neighborNum = Except.ok r2 →
          ∀ m, m < xTest.length → r2.2[m]? = r.2[m]? := by
  have hx : xTrain2.Perm xTrain := by
    have h := hperm.map Prod.fst
    rwa [List.map_fst_zip _ _ (by omega), List.map_fst_zip _ _ (by omega)] at h
  cases xTrain with
  | nil =>
    have h2 : xTrain2 = [] := List.Perm.eq_nil hx
    subst h2
    refine ⟨rfl, ?_⟩
    intro r r2 hr
    have : classify [] xTest yTrain weight neighborNum = Except.error Fault.panic := rfl
    rw [this] at hr
    cases hr
  | cons row rest =>
    cases xTrain2 with
    | nil => exact absurd hx.length_eq (by simp)
    | cons row2 rest2 =>
      have hrow : row.length = featNum := hrows row (List.mem_cons_self _ _)
      have hrow2 : row2.length = featNum :=
        hrows row2 (hx.mem_iff.mp (List.mem_cons_self _ _))
      obtain ⟨hok, herr⟩ := classify_char row rest xTest yTrain weight neighborNum hl
      obtain ⟨hok2, herr2⟩ := classify_char row2 rest2 xTest yTrain2 weight neighborNum hl2
      rw [hrow] at hok herr
      rw [hrow2] at hok2 herr2
      have hiff : (∀ ip ∈ xTest.enum, PointOk (row2 :: rest2) weight featNum ip.1 ip.2)
          ↔ (∀ ip ∈ xTest.enum, PointOk (row :: rest) weight featNum ip.1 ip.2) := by
        constructor
        · intro h ip hip
          exact (pointOk_perm _ _ weight featNum ip.1 ip.2 hx).mp (h ip hip)
        · intro h ip hip
          exact (pointOk_perm _ _ weight featNum ip.1 ip.2 hx).mpr (h ip hip)
      by_cases hall : ∀ ip ∈ xTest.enum, PointOk (row :: rest) weight featNum ip.1 ip.2
      · obtain ⟨y, hy, hy1⟩ := hok hall
        obtain ⟨y2, hy2, hy21⟩ := hok2 (hiff.mpr hall)
        rw [hy, hy2]
        refine ⟨rfl, ?_⟩
        intro r r2 hr hr2 m hm
        cases hr
        cases hr2
        show y2[m]? = y[m]?
        rw [hy1 m hm, hy21 m hm]
      · rw [herr hall, herr2 (fun h => hall (hiff.mp h))]
        refine ⟨rfl, ?_⟩
        intro r r2 hr
        cases hr

theorem classify_perm_invariant_witness :
    (Except.map Prod.fst (classify [[0, 1], [1, 0]] [[1, 0], [0, 2]] [1, 0] [1, 1] 1)
        = Except.map Prod.fst (classify [[1, 0], [0, 1]] [[1, 0], [0, 2]] [0, 1] [1, 1] 1)
      ∧ ∀ r r2, classify [[1, 0], [0, 1]] [[1, 0], [0, 2]] [0, 1] [1, 1] 1 = Except.ok r →
          classify [[0, 1], [1, 0]] [[1, 0], [0, 2]] [1, 0] [1, 1] 1 = Except.ok r2 →
          ∀ m, m < ([[1, 0], [0, 2]] : List (List ℚ)).length → r2.2[m]? = r.2[m]?)
      ∧ classify [[1, 0], [0, 1]] [[1, 0], [0, 2]] [0, 1] [1, 1] 1 = Except.ok ([], [1, 1])
      ∧ classify [[0, 1], [1, 0]] [[1, 0], [0, 2]] [1, 0] [1, 1] 1 = Except.ok ([], [1, 1]) :=
  ⟨classify_perm_invariant [[1, 0], [0, 1]] [[0, 1], [1, 0]] [[1, 0], [0, 2]] [0, 1] [1, 0]
      [1, 1] 1 2 rfl rfl (List.Perm.swap _ _ []) (by simp),
    by decide!, by decide!⟩


/-! ## The label slots after `classify` -/

/-- C12 (what the code does instead). With one label per training row, whenever
`classify` returns, every label slot `YTrain[i]` of a test index `i` holds `1`,
also when a monitored instance was found among the extracted neighbours: the
`break` only leaves the neighbour loop and the assignment after it overwrites
the `0`. -/
theorem classify_labels_all_one (xTrain xTest : List (List ℚ)) (yTrain weight : List ℚ)
    (neighborNum : Int) (r : List ℚ × List ℚ) (hl : xTrain.length = yTrain.length)
    (h : classify xTrain xTest yTrain weight neighborNum = Except.ok r) :
    ∀ i, i < xTest.length → r.2[i]? = some 1 := by
  cases xTrain with
  | nil =>
    have hp : classify [] xTest yTrain weight neighborNum = Except.error Fault.panic := rfl
    rw [hp] at h
    cases h
  | cons row rest =>
    obtain ⟨hok, herr⟩ := classify_char row rest xTest yTrain weight neighborNum hl
    by_cases hall : ∀ ip ∈ xTest.enum, PointOk (row :: rest) weight row.length ip.1 ip.2
    · obtain ⟨y, hy, hy1⟩ := hok hall
      rw [hy] at h
      cases h
      exact hy1
    · rw [herr hall] at h
      cases h

theorem classify_labels_all_one_witness :
    classify [[2], [3]] [[2]] [0, 1] [1] 1 = Except.ok ([], [1, 1])
      ∧ fillDistList [2] [1] [[2], [3]] [0] 1 [0, 0] = Except.ok [0, 1]
      ∧ nearestLoop 0 1 1 [0, 1] [0, 1] = Except.ok ([0, 1], [0, 1])
      ∧ ∀ i, i < ([[2]] : List (List ℚ)).length →
          (([], [1, 1]) : List ℚ × List ℚ).2[i]? = some 1 :=
  ⟨by decide!, by decide!, by decide!,
    classify_labels_all_one [[2], [3]] [[2]] [0, 1] [1] 1 ([], [1, 1]) rfl (by decide!)⟩

/-! ## The minimum scans start from zero -/

theorem foldl_fixed {σ β : Type} (f : σ → β → σ) (s : σ) :
    ∀ l : List β, (∀ v ∈ l, f s v = s) → l.foldl f s = s := by
  intro l
  induction l with
  | nil => intro _; rfl
  | cons v vs ih =>
    intro h
    rw [List.foldl_cons, h v (List.mem_cons_self v vs)]
    exact ih (fun u hu => h u (List.mem_cons_of_mem v hu))

/-- C13 (what the code does instead). On a distance row without a negative
entry, `getMinSubset` returns index `0` and value `0` for every list of
in-range indices, whether or not `0` is in the list and whatever the distances
are: the results start at zero and only a strictly smaller entry replaces them. -/
theorem getMinSubset_of_nonneg (distList : List ℚ) (subsetInds : List Int)
    (hd : ∀ x ∈ distList, 0 ≤ x)
    (hin : ∀ v ∈ subsetInds, 0 ≤ v ∧ v < distList.length) :
    getMinSubset distList subsetInds = Except.ok (0, 0) := by
  unfold getMinSubset
  apply foldlM_fixed
  intro v hv
  obtain ⟨h0, h1⟩ := hin v hv
  have hlt : v.toNat < distList.length := by omega
  rw [getIdx_of_lt distList v 0 h0 h1, ok_bind]
  have hx : 0 ≤ distList.getD v.toNat 0 := by
    rw [List.getD_eq_getElem distList 0 hlt]
    exact hd _ (List.getElem_mem hlt)
  simp only [not_lt.mpr hx, if_false, pure_eq_ok]

theorem getMinSubset_of_nonneg_witness :
    getMinSubset [5, 3, 4] [1, 2] = Except.ok (0, 0) :=
  getMinSubset_of_nonneg [5, 3, 4] [1, 2] (by decide!) (by decide)

/-- C16 (what the code does instead). On a list without a negative entry, in
particular on a list of strictly positive counts, `getMin` returns index `0`
and value `0`, not the least entry and its first position. -/
theorem getMin_of_nonneg (badList : List ℚ) (hb : ∀ x ∈ badList, 0 ≤ x) :
    getMin badList = (0, 0) := by
  unfold getMin
  apply foldl_fixed
  intro iv hiv
  have hx : 0 ≤ iv.2 := hb iv.2 (List.snd_mem_of_mem_enum hiv)
  simp only [not_lt.mpr hx, if_false]

theorem getMin_of_nonneg_witness : getMin [2, 1, 3] = (0, 0) :=
  getMin_of_nonneg [2, 1, 3] (by decide!)

/-! ## Neighbour selection in a round -/

/-- C14 (evaluation of the code). For `xTrain=[[1],[2],[3],[4]]`,
`yTrain=[0,0,1,1]`, `recoPointsNum=1` and weight `[1]`, the round for training
point `0` computes the distances `[0,1,2,3]`, overwrites the self-distance with
the maximum `3`, and still selects index `0`, the point itself, as its good
neighbour, although index `1` of the same class is at distance `1`. -/
theorem wllccRound_selects_self :
    partitionInds [0, 0, 1, 1] = Except.ok ([0, 1], [2, 3])
      ∧ fillPresentFeats [1] 1 [0] = Except.ok ([0], 1)
      ∧ fillDistList [1] [1] [[1], [2], [3], [4]] [0] 1 [0, 0, 0, 0] = Except.ok [0, 1, 2, 3]
      ∧ getMax [0, 1, 2, 3] = (3, 3)
      ∧ selectGood [0, 1] 3 1 [3, 1, 2, 3] [0] = Except.ok (0, [3, 1, 2, 3], [0])
      ∧ wllccRound [[1], [2], [3], [4]] 1 false 1 0 [1] [0] 1 [0, 1] [2, 3]
            ⟨[1], [0, 0, 0, 0], [0], [0], [0], [0]⟩
          = Except.ok ⟨[499 / 500], [3, 1, 2, 3], [0], [0], [0], [1]⟩ := by
  refine ⟨by decide!, by decide!, by decide!, by decide!, by decide!, by decide!⟩

/-- C15 (evaluation of the code). For `xTrain=[[1],[2],[3],[4]]`,
`yTrain=[0,0,1,1]`, `recoPointsNum=2` and weight `[1]`, the round for training
point `1` (distances `[1,0,1,2]`, self-distance overwritten with the maximum
`2`) collects `recoGoodList=[0,0]` and `recoBadList=[0,0]`: the same index
is selected twice in both lists. -/
theorem wllccRound_selects_twice :
    partitionInds [0, 0, 1, 1] = Except.ok ([0, 1], [2, 3])
      ∧ fillPresentFeats [2] 1 [0] = Except.ok ([0], 1)
      ∧ fillDistList [2] [1] [[1], [2], [3], [4]] [0] 1 [0, 0, 0, 0] = Except.ok [1, 0, 1, 2]
      ∧ getMax [1, 0, 1, 2] = (3, 2)
      ∧ selectGood [0, 1] 2 2 [1, 2, 1, 2] [0, 0] = Except.ok (0, [2, 2, 1, 2], [0, 0])
      ∧ selectBad [2, 3] 2 0 2 [2, 2, 1, 2] [0, 0] = Except.ok (0, [2, 2, 1, 2], [0, 0])
      ∧ wllccRound [[1], [2], [3], [4]] 2 false 1 1 [2] [0] 1 [0, 1] [2, 3]
            ⟨[1], [0, 0, 0, 0], [0, 0], [0, 0], [0], [0]⟩
          = Except.ok ⟨[999 / 1000], [2, 2, 1, 2], [0, 0], [0, 0], [2], [2]⟩ := by
  refine ⟨by decide!, by decide!, by decide!, by decide!, by decide!, by decide!,
    by decide!⟩


/-! ## The class partition of the learner -/

/-- The indices below `n` with label `0`, in increasing order. -/
def monitoredUpTo (y : List ℚ) (n : Nat) : List Int :=
  ((List.range n).filter (fun i => y.getD i 0 = 0)).map Int.ofNat

/-- The indices below `n` with a non-zero label, in increasing order. -/
def nonMonitoredUpTo (y : List ℚ) (n : Nat) : List Int :=
  ((List.range n).filter (fun i => y.getD i 0 ≠ 0)).map Int.ofNat

/-- One iteration of the filling loop of `partitionInds`. -/
def partStep (s : (List Int × Nat) × (List Int × Nat)) (iv : Nat × ℚ) :
    Run ((List Int × Nat) × (List Int × Nat)) :=
  if iv.2 = 0 then do
    let m ← setAt s.1.1 s.1.2 (iv.1 : Int)
    pure ((m, s.1.2 + 1), s.2)
  else do
    let n ← setAt s.2.1 s.2.2 (iv.1 : Int)
    pure (s.1, (n, s.2.2 + 1))

theorem partitionInds_eq (yTrain : List ℚ) :
    partitionInds yTrain
      = (yTrain.enum.foldlM partStep
            ((List.replicate (countClasses yTrain).1 (0 : Int), 0),
             (List.replicate (countClasses yTrain).2 (0 : Int), 0))
          >>= fun r => Except.ok (r.1.1, r.2.1)) := rfl

theorem getD_append_singleton_lt (l : List ℚ) (x : ℚ) (i : Nat) (h : i < l.length) :
    (l ++ [x]).getD i 0 = l.getD i 0 := by
  rw [List.getD_eq_getElem _ 0 (by simp; omega), List.getD_eq_getElem _ 0 h,
    List.getElem_append_left h]

theorem getD_append_singleton_length (l : List ℚ) (x : ℚ) :
    (l ++ [x]).getD l.length 0 = x := by
  rw [List.getD_eq_getElem _ 0 (by simp)]
  simp

theorem monitoredUpTo_append (l : List ℚ) (x : ℚ) :
    monitoredUpTo (l ++ [x]) (l.length + 1)
      = monitoredUpTo l l.length ++ (if x = 0 then [(l.length : Int)] else []) := by
  unfold monitoredUpTo
  rw [List.range_succ, List.filter_append, List.map_append]
  congr 1
  · congr 1
    apply List.filter_congr
    intro i hi
    rw [getD_append_singleton_lt l x i (List.mem_range.mp hi)]
  · by_cases hx : x = 0
    · simp only [List.filter_cons, getD_append_singleton_length, hx, decide_True, if_true,
        List.filter_nil, List.map_cons, List.map_nil, Int.ofNat_eq_coe]
    · simp only [List.filter_cons, getD_append_singleton_length, hx, decide_False,
        Bool.false_eq_true, if_false, List.filter_nil, List.map_nil]

theorem nonMonitoredUpTo_append (l : List ℚ) (x : ℚ) :
    nonMonitoredUpTo (l ++ [x]) (l.length + 1)
      = nonMonitoredUpTo l l.length ++ (if x = 0 then [] else [(l.length : Int)]) := by
  unfold nonMonitoredUpTo
  rw [List.range_succ, List.filter_append, List.map_append]
  congr 1
  · congr 1
    apply List.filter_congr
    intro i hi
    rw [getD_append_singleton_lt l x i (List.mem_range.mp hi)]
  · by_cases hx : x = 0
    · simp only [List.filter_cons, getD_append_singleton_length, hx, ne_eq,
        not_true_eq_false, decide_False, Bool.false_eq_true, if_false, if_true,
        List.filter_nil, List.map_nil]
    · simp only [List.filter_cons, getD_append_singleton_length, hx, ne_eq,
        not_false_eq_true, decide_True, if_true, if_false, List.filter_nil, List.map_cons,
        List.map_nil, Int.ofNat_eq_coe]

theorem countClasses_foldl (l : List ℚ) :
    ∀ c : Nat × Nat,
      l.foldl (fun c v => if v = 0 then (c.1 + 1, c.2) else (c.1, c.2 + 1)) c
        = (c.1 + (monitoredUpTo l l.length).length,
           c.2 + (nonMonitoredUpTo l l.length).length) := by
  induction l using List.reverseRecOn with
  | nil => intro c; rfl
  | append_singleton l x ih =>
    intro c
    rw [List.foldl_append, ih c, List.length_append, List.length_singleton,
      monitoredUpTo_append, nonMonitoredUpTo_append]
    by_cases hx : x = 0
    · simp only [List.foldl_cons, List.foldl_nil, hx, if_true, List.length_append,
        List.length_singleton, List.append_nil, Nat.add_assoc]
    · simp only [List.foldl_cons, List.foldl_nil, hx, if_false, List.length_append,
        List.length_singleton, List.append_nil, Nat.add_assoc]

theorem countClasses_eq (yTrain : List ℚ) :
    countClasses yTrain
      = ((monitoredUpTo yTrain yTrain.length).length,
         (nonMonitoredUpTo yTrain yTrain.length).length) := by
  unfold countClasses
  rw [countClasses_foldl yTrain (0, 0)]
  simp


theorem partition_fold (l : List ℚ) :
    ∀ m0 n0 : List Int, (monitoredUpTo l l.length).length ≤ m0.length →
      (nonMonitoredUpTo l l.length).length ≤ n0.length →
      ∃ m nn, l.enum.foldlM partStep ((m0, 0), (n0, 0))
          = Except.ok ((m, (monitoredUpTo l l.length).length),
              (nn, (nonMonitoredUpTo l l.length).length))
        ∧ m.length = m0.length ∧ nn.length = n0.length
        ∧ m.take (monitoredUpTo l l.length).length = monitoredUpTo l l.length
        ∧ nn.take (nonMonitoredUpTo l l.length).length = nonMonitoredUpTo l l.length := by
  induction l using List.reverseRecOn with
  | nil =>
    intro m0 n0 _ _
    exact ⟨m0, n0, rfl, rfl, rfl, rfl, rfl⟩
  | append_singleton l x ih =>
    intro m0 n0 hm hn
    rw [List.length_append, List.length_singleton, monitoredUpTo_append] at hm
    rw [List.length_append, List.length_singleton, nonMonitoredUpTo_append] at hn
    rw [List.length_append] at hm hn
    obtain ⟨m, nn, hrun, hml, hnl, hmt, hnt⟩ := ih m0 n0 (by omega) (by omega)
    rw [List.enum_append, List.foldlM_append, hrun, ok_bind, List.length_append,
      List.length_singleton, monitoredUpTo_append, nonMonitoredUpTo_append]
    have hone : List.enumFrom l.length [x] = [(l.length, x)] := rfl
    rw [hone, List.foldlM_cons]
    unfold partStep
    by_cases hx : x = 0
    · simp only [hx, if_true, List.length_cons, List.length_nil] at hm
      have hlt : (monitoredUpTo l l.length).length < m.length := by omega
      refine ⟨m.set (monitoredUpTo l l.length).length (l.length : Int), nn, ?_, ?_, hnl,
        ?_, ?_⟩
      · simp only [hx, if_true, setAt_of_lt m _ (l.length : Int) hlt, ok_bind, pure_eq_ok,
          List.foldlM_nil, List.length_append, List.length_singleton, List.append_nil,
          List.length_nil, Nat.add_zero]
      · simp [hml]
      · simp only [hx, if_true, List.length_append, List.length_singleton]
        rw [take_succ_set m _ _ hlt, hmt]
      · simp only [hx, if_true, List.append_nil]
        exact hnt
    · simp only [hx, if_false, List.length_cons, List.length_nil] at hn
      have hlt : (nonMonitoredUpTo l l.length).length < nn.length := by omega
      refine ⟨m, nn.set (nonMonitoredUpTo l l.length).length (l.length : Int), ?_, hml, ?_,
        ?_, ?_⟩
      · simp only [hx, if_false, setAt_of_lt nn _ (l.length : Int) hlt, ok_bind, pure_eq_ok,
          List.foldlM_nil, List.length_append, List.length_singleton, List.append_nil,
          List.length_nil, Nat.add_zero]
      · simp [hnl]
      · simp only [hx, if_false, List.append_nil]
        exact hmt
      · simp only [hx, if_false, List.length_append, List.length_singleton]
        rw [take_succ_set nn _ _ hlt, hnt]

/-- The partition loop returns exactly the two index lists. -/
theorem partitionInds_eq_lists (yTrain : List ℚ) :
    partitionInds yTrain
      = Except.ok (monitoredUpTo yTrain yTrain.length,
          nonMonitoredUpTo yTrain yTrain.length) := by
  rw [partitionInds_eq, countClasses_eq]
  obtain ⟨m, nn, hrun, hml, hnl, hmt, hnt⟩ := partition_fold yTrain
    (List.replicate (monitoredUpTo yTrain yTrain.length).length 0)
    (List.replicate (nonMonitoredUpTo yTrain yTrain.length).length 0)
    (by simp) (by simp)
  simp only [hrun, ok_bind]
  rw [List.length_replicate] at hml hnl
  rw [← hml, List.take_length] at hmt
  rw [← hnl, List.take_length] at hnt
  rw [hmt, hnt]

/-- C17. For every label vector `yTrain` of length `n`, `partitionInds` returns
`monitoredInds`, the increasing list of the indices `i < n` with
`yTrain[i] == 0`, and `nonMonitoredInds`, the increasing list of the indices with
`yTrain[i] != 0`; both are strictly increasing, they are disjoint, and together
they hold every index `0..n-1` exactly once, so no slot is left unfilled. -/
theorem partitionInds_spec (yTrain : List ℚ) :
    partitionInds yTrain
        = Except.ok (monitoredUpTo yTrain yTrain.length,
            nonMonitoredUpTo yTrain yTrain.length)
      ∧ (monitoredUpTo yTrain yTrain.length).Pairwise (fun a b => a < b)
      ∧ (nonMonitoredUpTo yTrain yTrain.length).Pairwise (fun a b => a < b)
      ∧ (∀ v, v ∈ monitoredUpTo yTrain yTrain.length →
          v ∉ nonMonitoredUpTo yTrain yTrain.length)
      ∧ (monitoredUpTo yTrain yTrain.length ++ nonMonitoredUpTo yTrain yTrain.length).Perm
          ((List.range yTrain.length).map Int.ofNat)
      ∧ (monitoredUpTo yTrain yTrain.length).length
          + (nonMonitoredUpTo yTrain yTrain.length).length = yTrain.length := by
  have hperm : (monitoredUpTo yTrain yTrain.length
      ++ nonMonitoredUpTo yTrain yTrain.length).Perm
      ((List.range yTrain.length).map Int.ofNat) := by
    unfold monitoredUpTo nonMonitoredUpTo
    rw [← List.map_append]
    apply List.Perm.map
    have hc : List.filter (fun i => decide (yTrain.getD i 0 ≠ 0)) (List.range yTrain.length)
        = List.filter (fun i => !decide (yTrain.getD i 0 = 0)) (List.range yTrain.length) := by
      apply List.filter_congr
      intro i _
      by_cases h : yTrain.getD i 0 = 0
      · simp only [h, ne_eq, not_true_eq_false, decide_False, decide_True, Bool.not_true]
      · simp only [h, ne_eq, not_false_eq_true, decide_True, decide_False, Bool.not_false]
    rw [hc]
    exact List.filter_append_perm _ _
  have hmono : ∀ (P : Nat → Bool),
      (((List.range yTrain.length).filter P).map Int.ofNat).Pairwise (fun a b => a < b) := by
    intro P
    rw [List.pairwise_map]
    exact ((List.pairwise_lt_range yTrain.length).filter P).imp
      (fun h => Int.ofNat_lt.mpr h)
  refine ⟨partitionInds_eq_lists yTrain, hmono _, hmono _, ?_, hperm, ?_⟩
  · intro v hv hv2
    unfold monitoredUpTo at hv
    unfold nonMonitoredUpTo at hv2
    rw [List.mem_map] at hv hv2
    obtain ⟨i, hi, rfl⟩ := hv
    obtain ⟨j, hj, hji⟩ := hv2
    have hij : j = i := Int.ofNat.inj hji
    subst hij
    rw [List.mem_filter] at hi hj
    have h1 : yTrain.getD j 0 = 0 := of_decide_eq_true hi.2
    have h2 : yTrain.getD j 0 ≠ 0 := of_decide_eq_true hj.2
    exact h2 h1
  · have := hperm.length_eq
    simpa using this


/-! ## The weight update: what the decrease phase computes -/

theorem getD_set_self (l : List ℚ) (i : Nat) (x : ℚ) (h : i < l.length) :
    (l.set i x).getD i 0 = x := by
  rw [List.getD_eq_getElem?_getD, List.getElem?_set_self h]
  rfl

theorem getD_set_ne (l : List ℚ) (i j : Nat) (x : ℚ) (h : i ≠ j) :
    (l.set i x).getD j 0 = l.getD j 0 := by
  rw [List.getD_eq_getElem?_getD, List.getD_eq_getElem?_getD, List.getElem?_set_ne h]

/-- The amount by which the decrease phase lowers `weight[j]`:
`weight[j] * 0.01 * badList[j] * (0.2 + pointBadness) / recoPointsNum^2`. -/
def deltaW (badList weight : List ℚ) (pointBadness : ℚ) (recoPointsNum : Int) (j : Nat) : ℚ :=
  weight.getD j 0 * (1 / 100) * badList.getD j 0 * (1 / 5 + pointBadness)
    / (recoPointsNum : ℚ) ^ 2

/-- One loop iteration of `decreasePhase`. -/
def decStep (badList featDist : List ℚ) (minBadList pointBadness : ℚ) (recoPointsNum : Int)
    (s : List ℚ × ℚ) (j : Nat) : Run (List ℚ × ℚ) := do
  let b ← getAt badList j
  if b ≠ minBadList then
    let w ← getAt s.1 j
    let deltaW ← fdiv (w * (1 / 100) * b * (1 / 5 + pointBadness))
      ((recoPointsNum : ℚ) ^ 2)
    let wt ← setAt s.1 j (w - deltaW)
    let fd ← getAt featDist j
    pure (wt, s.2 + deltaW * fd)
  else
    pure s

theorem decreasePhase_eq_foldlM (featNum : Nat) (badList featDist : List ℚ)
    (minBadList pointBadness : ℚ) (recoPointsNum : Int) (weight : List ℚ) :
    decreasePhase featNum badList featDist minBadList pointBadness recoPointsNum weight
      = (List.range featNum).foldlM
          (decStep badList featDist minBadList pointBadness recoPointsNum) (weight, 0) := rfl

/-- After the first `n` iterations of the decrease loop. -/
theorem decreasePhase_prefix (featNum : Nat) (badList featDist weight : List ℚ)
    (minBadList pointBadness : ℚ) (recoPointsNum : Int)
    (hb : badList.length = featNum) (hf : featDist.length = featNum)
    (hw : weight.length = featNum) (hr : recoPointsNum ≠ 0) :
    ∀ n, n ≤ featNum →
      ∃ w1 c1, (List.range n).foldlM
            (decStep badList featDist minBadList pointBadness recoPointsNum) (weight, 0)
          = Except.ok (w1, c1)
        ∧ w1.length = featNum
        ∧ (∀ j, w1.getD j 0
            = if j < n ∧ badList.getD j 0 ≠ minBadList
              then weight.getD j 0 - deltaW badList weight pointBadness recoPointsNum j
              else weight.getD j 0)
        ∧ c1 = ∑ j ∈ Finset.range n,
            if badList.getD j 0 ≠ minBadList
            then deltaW badList weight pointBadness recoPointsNum j * featDist.getD j 0
            else 0 := by
  have hr2 : ((recoPointsNum : ℚ) ^ 2) ≠ 0 := pow_ne_zero 2 (Int.cast_ne_zero.mpr hr)
  intro n
  induction n with
  | zero =>
    intro _
    refine ⟨weight, 0, rfl, hw, ?_, by simp⟩
    intro j
    simp
  | succ n ih =>
    intro hn
    obtain ⟨w1, c1, hrun, hlen, hpt, hc⟩ := ih (by omega)
    rw [foldlM_range_succ, hrun, ok_bind]
    unfold decStep
    rw [getAt_of_lt badList n 0 (by omega)]
    simp only [ok_bind]
    by_cases hdec : badList.getD n 0 = minBadList
    · refine ⟨w1, c1, ?_, hlen, ?_, ?_⟩
      · simp only [hdec, ne_eq, not_true_eq_false, if_false, pure_eq_ok]
      · intro j
        rw [hpt j]
        by_cases hj : j = n
        · subst hj
          simp only [hdec, ne_eq, not_true_eq_false, and_false, if_false]
        · have hiff : (j < n + 1) ↔ (j < n) := by omega
          simp only [hiff]
      · rw [Finset.sum_range_succ, ← hc]
        simp only [hdec, ne_eq, not_true_eq_false, if_false, add_zero]
    · have hwn : w1.getD n 0 = weight.getD n 0 := by
        rw [hpt n]
        simp only [lt_irrefl, false_and, if_false]
      refine ⟨w1.set n (weight.getD n 0
          - deltaW badList weight pointBadness recoPointsNum n),
        c1 + deltaW badList weight pointBadness recoPointsNum n * featDist.getD n 0,
        ?_, by simp [hlen], ?_, ?_⟩
      · simp only [hdec, ne_eq, not_false_eq_true, if_true,
          getAt_of_lt w1 n 0 (by omega : n < w1.length), ok_bind, fdiv, hr2, if_false,
          pure_eq_ok, setAt_of_lt w1 n _ (by omega : n < w1.length),
          getAt_of_lt featDist n 0 (by omega : n < featDist.length), hwn, deltaW]
      · intro j
        by_cases hj : j = n
        · subst hj
          rw [getD_set_self w1 j _ (by omega)]
          simp only [Nat.lt_succ_self, hdec, ne_eq, not_false_eq_true, and_self, if_true]
        · rw [getD_set_ne w1 n j _ (fun h => hj h.symm), hpt j]
          have hiff : (j < n + 1) ↔ (j < n) := by omega
          simp only [hiff]
      · rw [Finset.sum_range_succ, ← hc]
        simp only [hdec, ne_eq, not_false_eq_true, if_true]


/-- The whole decrease phase, for statistics and weights of length `featNum` and
`recoPointsNum != 0`. -/
theorem decreasePhase_char (featNum : Nat) (badList featDist weight : List ℚ)
    (minBadList pointBadness : ℚ) (recoPointsNum : Int)
    (hb : badList.length = featNum) (hf : featDist.length = featNum)
    (hw : weight.length = featNum) (hr : recoPointsNum ≠ 0) :
    ∃ w1 c1,
      decreasePhase featNum badList featDist minBadList pointBadness recoPointsNum weight
          = Except.ok (w1, c1)
        ∧ w1.length = featNum
        ∧ (∀ j, j < featNum → w1.getD j 0
            = if badList.getD j 0 ≠ minBadList
              then weight.getD j 0 - deltaW badList weight pointBadness recoPointsNum j
              else weight.getD j 0)
        ∧ c1 = ∑ j ∈ Finset.range featNum,
            if badList.getD j 0 ≠ minBadList
            then deltaW badList weight pointBadness recoPointsNum j * featDist.getD j 0
            else 0 := by
  obtain ⟨w1, c1, hrun, hlen, hpt, hc⟩ := decreasePhase_prefix featNum badList featDist
    weight minBadList pointBadness recoPointsNum hb hf hw hr featNum le_rfl
  refine ⟨w1, c1, by rw [decreasePhase_eq_foldlM]; exact hrun, hlen, ?_, hc⟩
  intro j hj
  rw [hpt j]
  simp only [hj, true_and]

/-- C18. In the weight-decrease phase (vectors of length `featNum`,
`recoPointsNum != 0`), every feature `j` with `badList[j] != minBadList` gets the
weight `weight[j] - deltaW_j` with
`deltaW_j = weight[j] * 0.01 * badList[j] * (0.2 + pointBadness) / recoPointsNum^2`
computed from the weight before the phase, every feature with
`badList[j] == minBadList` keeps its weight, and the returned `c1` is the sum of
`deltaW_j * featDist[j]` over the decreased features. -/
theorem decreasePhase_spec (featNum : Nat) (badList featDist weight : List ℚ)
    (minBadList pointBadness : ℚ) (recoPointsNum : Int)
    (hb : badList.length = featNum) (hf : featDist.length = featNum)
    (hw : weight.length = featNum) (hr : recoPointsNum ≠ 0) :
    ∃ w1 c1,
      decreasePhase featNum badList featDist minBadList pointBadness recoPointsNum weight
          = Except.ok (w1, c1)
        ∧ w1.length = featNum
        ∧ (∀ j, j < featNum → badList.getD j 0 ≠ minBadList →
            w1.getD j 0 = weight.getD j 0
              - weight.getD j 0 * (1 / 100) * badList.getD j 0 * (1 / 5 + pointBadness)
                / (recoPointsNum : ℚ) ^ 2)
        ∧ (∀ j, j < featNum → badList.getD j 0 = minBadList →
            w1.getD j 0 = weight.getD j 0)
        ∧ c1 = ∑ j ∈ (Finset.range featNum).filter (fun j => badList.getD j 0 ≠ minBadList),
            weight.getD j 0 * (1 / 100) * badList.getD j 0 * (1 / 5 + pointBadness)
              / (recoPointsNum : ℚ) ^ 2 * featDist.getD j 0 := by
  obtain ⟨w1, c1, hrun, hlen, hpt, hc⟩ := decreasePhase_char featNum badList featDist
    weight minBadList pointBadness recoPointsNum hb hf hw hr
  refine ⟨w1, c1, hrun, hlen, ?_, ?_, ?_⟩
  · intro j hj hdec
    rw [hpt j hj]
    simp only [hdec, ne_eq, not_false_eq_true, if_true, deltaW]
  · intro j hj hkeep
    rw [hpt j hj]
    simp only [hkeep, ne_eq, not_true_eq_false, if_false]
  · rw [hc, Finset.sum_filter]
    rfl

theorem decreasePhase_spec_witness :
    decreasePhase 2 [0, 1] [3, 2] 0 1 1 [1, -10] = Except.ok ([1, -247 / 25], -6 / 25)
      ∧ ∃ w1 c1, decreasePhase 2 [0, 1] [3, 2] 0 1 1 [1, -10] = Except.ok (w1, c1)
        ∧ w1.length = 2
        ∧ (∀ j, j < 2 → ([0, 1] : List ℚ).getD j 0 ≠ 0 →
            w1.getD j 0 = ([1, -10] : List ℚ).getD j 0
              - ([1, -10] : List ℚ).getD j 0 * (1 / 100) * ([0, 1] : List ℚ).getD j 0
                * (1 / 5 + 1) / ((1 : Int) : ℚ) ^ 2)
        ∧ (∀ j, j < 2 → ([0, 1] : List ℚ).getD j 0 = 0 →
            w1.getD j 0 = ([1, -10] : List ℚ).getD j 0)
        ∧ c1 = ∑ j ∈ (Finset.range 2).filter (fun j => ([0, 1] : List ℚ).getD j 0 ≠ 0),
            ([1, -10] : List ℚ).getD j 0 * (1 / 100) * ([0, 1] : List ℚ).getD j 0
              * (1 / 5 + 1) / ((1 : Int) : ℚ) ^ 2 * ([3, 2] : List ℚ).getD j 0 :=
  ⟨by decide!, decreasePhase_spec 2 [0, 1] [3, 2] [1, -10] 0 1 1 rfl rfl rfl (by decide)⟩


/-! ## The weight update: what the increase phase computes -/

theorem foldlM_range_sum (f : ℚ → Nat → Run ℚ) (g : Nat → ℚ) :
    ∀ n, (∀ j, j < n → ∀ t, f t j = Except.ok (t + g j)) →
      (List.range n).foldlM f 0 = Except.ok (∑ j ∈ Finset.range n, g j) := by
  intro n
  induction n with
  | zero => intro _; rfl
  | succ n ih =>
    intro h
    rw [foldlM_range_succ, ih (fun j hj t => h j (by omega) t), ok_bind,
      h n (Nat.lt_succ_self n), Finset.sum_range_succ]

theorem foldlM_range_pointwise (f : List ℚ → Nat → Run (List ℚ)) (u : Nat → ℚ) (w : List ℚ) :
    ∀ n, (∀ j, j < n → ∀ wt : List ℚ, wt.length = w.length → wt.getD j 0 = w.getD j 0 →
        ∃ wt2, f wt j = Except.ok wt2 ∧ wt2.length = wt.length
          ∧ ∀ k, wt2.getD k 0 = if k = j then u j else wt.getD k 0) →
      ∃ w2, (List.range n).foldlM f w = Except.ok w2 ∧ w2.length = w.length
        ∧ ∀ k, w2.getD k 0 = if k < n then u k else w.getD k 0 := by
  intro n
  induction n with
  | zero =>
    intro _
    exact ⟨w, rfl, rfl, fun k => by simp⟩
  | succ n ih =>
    intro h
    obtain ⟨w2, hrun, hlen, hpt⟩ := ih (fun j hj => h j (by omega))
    have hn : w2.getD n 0 = w.getD n 0 := by
      rw [hpt n]
      simp only [lt_irrefl, if_false]
    obtain ⟨w3, hstep, hlen3, hpt3⟩ := h n (Nat.lt_succ_self n) w2 hlen hn
    refine ⟨w3, ?_, by omega, ?_⟩
    · rw [foldlM_range_succ, hrun, ok_bind, hstep]
    · intro k
      rw [hpt3 k]
      by_cases hk : k = n
      · subst hk
        simp only [if_true, Nat.lt_succ_self]
      · rw [hpt k]
        have hiff : (k < n + 1) ↔ (k < n) := by omega
        simp only [hk, if_false, hiff]

theorem totalFeatDist_char (featNum : Nat) (badList featDist weight : List ℚ)
    (minBadList : ℚ) (hb : badList.length = featNum) (hf : featDist.length = featNum)
    (hw : weight.length = featNum) :
    totalFeatDist featNum badList featDist minBadList weight
      = Except.ok (∑ j ∈ Finset.range featNum,
          if badList.getD j 0 = minBadList ∧ 0 < weight.getD j 0
          then featDist.getD j 0 else 0) := by
  unfold totalFeatDist
  apply foldlM_range_sum
  intro j hj t
  rw [getAt_of_lt badList j 0 (by omega), getAt_of_lt weight j 0 (by omega),
    getAt_of_lt featDist j 0 (by omega)]
  by_cases h1 : badList.getD j 0 = minBadList
  · by_cases h2 : 0 < weight.getD j 0
    · simp only [ok_bind, h1, h2, gt_iff_lt, and_self, if_true, pure_eq_ok]
    · simp only [ok_bind, h1, h2, gt_iff_lt, and_false, if_true, if_false, pure_eq_ok,
        add_zero]
  · simp only [ok_bind, h1, false_and, if_false, pure_eq_ok, add_zero]

theorem weightTotalOf_char (featNum : Nat) (badList weight : List ℚ) (minBadList : ℚ)
    (hb : badList.length = featNum) (hw : weight.length = featNum) :
    weightTotalOf featNum badList minBadList weight
      = Except.ok (∑ j ∈ Finset.range featNum,
          if badList.getD j 0 = minBadList ∧ 0 < weight.getD j 0
          then weight.getD j 0 else 0) := by
  unfold weightTotalOf
  apply foldlM_range_sum
  intro j hj t
  rw [getAt_of_lt badList j 0 (by omega), getAt_of_lt weight j 0 (by omega)]
  by_cases h1 : badList.getD j 0 = minBadList
  · by_cases h2 : 0 < weight.getD j 0
    · simp only [ok_bind, h1, h2, gt_iff_lt, and_self, if_true, pure_eq_ok]
    · simp only [ok_bind, h1, h2, gt_iff_lt, and_false, if_true, if_false, pure_eq_ok,
        add_zero]
  · simp only [ok_bind, h1, false_and, if_false, pure_eq_ok, add_zero]

/-- The original increase with a non-zero `totalfd`: every feature with
`badList[j] == minBadList` and `weight[j] > 0` gains `c1 / totalfd`. -/
theorem increaseOriginal_char (featNum : Nat) (badList weight : List ℚ)
    (minBadList c1 totalfd : ℚ) (hb : badList.length = featNum)
    (hw : weight.length = featNum) (ht : totalfd ≠ 0) :
    ∃ w2, increaseOriginal featNum badList minBadList c1 totalfd weight = Except.ok w2
      ∧ w2.length = featNum
      ∧ ∀ j, j < featNum → w2.getD j 0
          = if badList.getD j 0 = minBadList ∧ 0 < weight.getD j 0
            then weight.getD j 0 + c1 / totalfd else weight.getD j 0 := by
  rw [increaseOriginal_eq_foldlM]
  obtain ⟨w2, hrun, hlen, hpt⟩ := foldlM_range_pointwise
    (incOrigStep badList minBadList c1 totalfd)
    (fun j => if badList.getD j 0 = minBadList ∧ 0 < weight.getD j 0
      then weight.getD j 0 + c1 / totalfd else weight.getD j 0) weight featNum (by
    intro j hj wt hlen hwj
    unfold incOrigStep
    rw [getAt_of_lt badList j 0 (by omega), getAt_of_lt wt j 0 (by omega), hwj]
    by_cases h1 : badList.getD j 0 = minBadList
    · by_cases h2 : 0 < weight.getD j 0
      · refine ⟨wt.set j (weight.getD j 0 + c1 / totalfd), ?_, by simp, ?_⟩
        · simp only [ok_bind, h1, h2, gt_iff_lt, if_true, fdiv, ht, if_false, pure_eq_ok,
            setAt_of_lt wt j _ (by omega : j < wt.length)]
        · intro k
          by_cases hk : k = j
          · subst hk
            rw [getD_set_self wt k _ (by omega)]
            simp only [h1, h2, and_self, if_true]
          · rw [getD_set_ne wt j k _ (fun h => hk h.symm)]
            simp only [hk, if_false]
      · refine ⟨wt, ?_, rfl, ?_⟩
        · simp only [ok_bind, h1, h2, gt_iff_lt, if_true, if_false, pure_eq_ok]
        · intro k
          by_cases hk : k = j
          · subst hk
            simp only [h1, h2, and_false, if_true, if_false, hwj]
          · simp only [hk, if_false]
    · refine ⟨wt, ?_, rfl, ?_⟩
      · simp only [ok_bind, h1, if_false, pure_eq_ok]
      · intro k
        by_cases hk : k = j
        · subst hk
          simp only [h1, false_and, if_true, if_false, hwj]
        · simp only [hk, if_false])
  refine ⟨w2, hrun, by omega, ?_⟩
  intro j hj
  rw [hpt j]
  simp only [hj, if_true]


/-- The proportional increase with a non-zero `totalfd` and a non-zero
`weightAverage`: every feature with `badList[j] == minBadList` and
`weight[j] > 0` gains `(c1 / totalfd) * (weight[j] / weightAverage)`. -/
theorem increaseProportional_char (featNum : Nat) (badList weight : List ℚ)
    (minBadList c1 totalfd : ℚ) (hb : badList.length = featNum)
    (hw : weight.length = featNum) (ht : totalfd ≠ 0) (hn : featNum ≠ 0)
    (havg : (∑ j ∈ Finset.range featNum,
        if badList.getD j 0 = minBadList ∧ 0 < weight.getD j 0
        then weight.getD j 0 else 0) / (featNum : ℚ) ≠ 0) :
    ∃ w2, increaseProportional featNum badList minBadList c1 totalfd weight = Except.ok w2
      ∧ w2.length = featNum
      ∧ ∀ j, j < featNum → w2.getD j 0
          = if badList.getD j 0 = minBadList ∧ 0 < weight.getD j 0
            then weight.getD j 0 + c1 / totalfd * (weight.getD j 0
              / ((∑ j ∈ Finset.range featNum,
                  if badList.getD j 0 = minBadList ∧ 0 < weight.getD j 0
                  then weight.getD j 0 else 0) / (featNum : ℚ)))
            else weight.getD j 0 := by
  have hnq : (featNum : ℚ) ≠ 0 := Nat.cast_ne_zero.mpr hn
  rw [increaseProportional_eq_foldlM, weightTotalOf_char featNum badList weight minBadList hb hw,
    ok_bind]
  generalize hA : (∑ j ∈ Finset.range featNum,
        if badList.getD j 0 = minBadList ∧ 0 < weight.getD j 0
        then weight.getD j 0 else 0) = wtot at havg ⊢
  have hfd : fdiv wtot (featNum : ℚ) = Except.ok (wtot / (featNum : ℚ)) := by
    simp only [fdiv, hnq, if_false, pure_eq_ok]
  obtain ⟨w2, hrun, hlen, hpt⟩ := foldlM_range_pointwise
    (incPropStep badList minBadList c1 totalfd (fdiv wtot (featNum : ℚ)))
    (fun j => if badList.getD j 0 = minBadList ∧ 0 < weight.getD j 0
      then weight.getD j 0 + c1 / totalfd * (weight.getD j 0 / (wtot / (featNum : ℚ)))
      else weight.getD j 0) weight featNum (by
    intro j hj wt hlen hwj
    unfold incPropStep
    rw [getAt_of_lt badList j 0 (by omega), getAt_of_lt wt j 0 (by omega), hwj, hfd]
    by_cases h1 : badList.getD j 0 = minBadList
    · by_cases h2 : 0 < weight.getD j 0
      · refine ⟨wt.set j (weight.getD j 0
            + c1 / totalfd * (weight.getD j 0 / (wtot / (featNum : ℚ)))), ?_, by simp, ?_⟩
        · simp only [ok_bind, h1, h2, gt_iff_lt, if_true, fdiv, ht, havg, if_false,
            pure_eq_ok, setAt_of_lt wt j _ (by omega : j < wt.length)]
        · intro k
          by_cases hk : k = j
          · subst hk
            rw [getD_set_self wt k _ (by omega)]
            simp only [h1, h2, and_self, if_true]
          · rw [getD_set_ne wt j k _ (fun h => hk h.symm)]
            simp only [hk, if_false]
      · refine ⟨wt, ?_, rfl, ?_⟩
        · simp only [ok_bind, h1, h2, gt_iff_lt, if_true, if_false, pure_eq_ok]
        · intro k
          by_cases hk : k = j
          · subst hk
            simp only [h1, h2, and_false, if_true, if_false, hwj]
          · simp only [hk, if_false]
    · refine ⟨wt, ?_, rfl, ?_⟩
      · simp only [ok_bind, h1, if_false, pure_eq_ok]
      · intro k
        by_cases hk : k = j
        · subst hk
          simp only [h1, false_and, if_true, if_false, hwj]
        · simp only [hk, if_false])
  refine ⟨w2, hrun, by omega, ?_⟩
  intro j hj
  rw [hpt j]
  simp only [hj, if_true]

/-! ## Conservation of the distance to the bad neighbours -/

/-- The decrease phase lowers the weighted sum of the feature distances by `c1`. -/
theorem decrease_sum (featNum : Nat) (badList featDist weight w1 : List ℚ)
    (minBadList : ℚ) (dw : Nat → ℚ)
    (hpt : ∀ j, j < featNum → w1.getD j 0
      = if badList.getD j 0 ≠ minBadList then weight.getD j 0 - dw j
        else weight.getD j 0) :
    ∑ j ∈ Finset.range featNum, w1.getD j 0 * featDist.getD j 0
      = ∑ j ∈ Finset.range featNum, weight.getD j 0 * featDist.getD j 0
        - ∑ j ∈ Finset.range featNum,
            if badList.getD j 0 ≠ minBadList then dw j * featDist.getD j 0 else 0 := by
  rw [← Finset.sum_sub_distrib]
  apply Finset.sum_congr rfl
  intro j hj
  rw [hpt j (Finset.mem_range.mp hj)]
  by_cases h : badList.getD j 0 = minBadList
  · simp only [h, ne_eq, not_true_eq_false, if_false, sub_zero]
  · simp only [h, ne_eq, not_false_eq_true, if_true]
    ring

/-- An increase that adds `g j` to the selected features raises the weighted sum
of the feature distances by the sum of `g j * featDist[j]` over them. -/
theorem increase_sum (featNum : Nat) (badList featDist w1 w2 : List ℚ)
    (minBadList : ℚ) (g : Nat → ℚ)
    (hpt : ∀ j, j < featNum → w2.getD j 0
      = if badList.getD j 0 = minBadList ∧ 0 < w1.getD j 0 then w1.getD j 0 + g j
        else w1.getD j 0) :
    ∑ j ∈ Finset.range featNum, w2.getD j 0 * featDist.getD j 0
      = ∑ j ∈ Finset.range featNum, w1.getD j 0 * featDist.getD j 0
        + ∑ j ∈ Finset.range featNum,
            if badList.getD j 0 = minBadList ∧ 0 < w1.getD j 0
            then g j * featDist.getD j 0 else 0 := by
  rw [← Finset.sum_add_distrib]
  apply Finset.sum_congr rfl
  intro j hj
  rw [hpt j (Finset.mem_range.mp hj)]
  by_cases h : badList.getD j 0 = minBadList ∧ 0 < w1.getD j 0
  · simp only [h, and_self, if_true]
    ring
  · simp only [h, if_false, add_zero]

/-- C11. In the non-proportional variant (vectors of length `featNum`,
`recoPointsNum != 0`) the decrease phase and the computation of `totalfd`
return, and when `totalfd != 0` the increase phase returns and restores exactly
the amount `c1` that the decrease phase removed: the sum over all features of
`weight[j] * featDist[j]` after both phases equals its value before the decrease
phase. -/
theorem nonproportional_update_conserves (featNum : Nat) (badList featDist weight : List ℚ)
    (minBadList pointBadness : ℚ) (recoPointsNum : Int)
    (hb : badList.length = featNum) (hf : featDist.length = featNum)
    (hw : weight.length = featNum) (hr : recoPointsNum ≠ 0) :
    ∃ w1 c1 totalfd,
      decreasePhase featNum badList featDist minBadList pointBadness recoPointsNum weight
          = Except.ok (w1, c1)
        ∧ totalFeatDist featNum badList featDist minBadList w1 = Except.ok totalfd
        ∧ ∑ j ∈ Finset.range featNum, w1.getD j 0 * featDist.getD j 0
            = ∑ j ∈ Finset.range featNum, weight.getD j 0 * featDist.getD j 0 - c1
        ∧ (totalfd ≠ 0 →
            ∃ w2, increasePhase false featNum badList featDist minBadList c1 w1
                = Except.ok w2
              ∧ ∑ j ∈ Finset.range featNum, w2.getD j 0 * featDist.getD j 0
                  = ∑ j ∈ Finset.range featNum, weight.getD j 0 * featDist.getD j 0) := by
  obtain ⟨w1, c1, hdec, hlen1, hpt1, hc1⟩ := decreasePhase_char featNum badList featDist
    weight minBadList pointBadness recoPointsNum hb hf hw hr
  have htot := totalFeatDist_char featNum badList featDist w1 minBadList hb hf hlen1
  have hsum1 := decrease_sum featNum badList featDist weight w1 minBadList
    (deltaW badList weight pointBadness recoPointsNum) hpt1
  rw [← hc1] at hsum1
  refine ⟨w1, c1, _, hdec, htot, hsum1, ?_⟩
  intro ht
  obtain ⟨w2, hinc, _, hpt2⟩ := increaseOriginal_char featNum badList w1 minBadList c1 _
    hb hlen1 ht
  refine ⟨w2, ?_, ?_⟩
  · unfold increasePhase
    rw [htot, ok_bind]
    simp only [Bool.false_eq_true, if_false]
    exact hinc
  · have hsum2 := increase_sum featNum badList featDist w1 w2 minBadList
      (fun _ => c1 / (∑ j ∈ Finset.range featNum,
        if badList.getD j 0 = minBadList ∧ 0 < w1.getD j 0
        then featDist.getD j 0 else 0)) hpt2
    rw [hsum2, hsum1]
    have hgain : (∑ j ∈ Finset.range featNum,
        if badList.getD j 0 = minBadList ∧ 0 < w1.getD j 0
        then c1 / (∑ j ∈ Finset.range featNum,
            if badList.getD j 0 = minBadList ∧ 0 < w1.getD j 0
            then featDist.getD j 0 else 0) * featDist.getD j 0
        else 0) = c1 := by
      generalize hT : (∑ j ∈ Finset.range featNum,
        if badList.getD j 0 = minBadList ∧ 0 < w1.getD j 0
        then featDist.getD j 0 else 0) = T at ht ⊢
      have hstep : ∀ j ∈ Finset.range featNum,
          (if badList.getD j 0 = minBadList ∧ 0 < w1.getD j 0
            then c1 / T * featDist.getD j 0 else 0)
          = c1 / T * (if badList.getD j 0 = minBadList ∧ 0 < w1.getD j 0
            then featDist.getD j 0 else 0) := by
        intro j _
        by_cases h : badList.getD j 0 = minBadList ∧ 0 < w1.getD j 0
        · simp only [h, and_self, if_true]
        · simp only [h, if_false, mul_zero]
      rw [Finset.sum_congr rfl hstep, ← Finset.mul_sum, hT]
      field_simp
    rw [hgain]
    ring

theorem nonproportional_update_conserves_witness :
    (decreasePhase 2 [0, 1] [3, 2] 0 1 1 [1, -10] = Except.ok ([1, -247 / 25], -6 / 25)
      ∧ totalFeatDist 2 [0, 1] [3, 2] 0 [1, -247 / 25] = Except.ok 3
      ∧ increasePhase false 2 [0, 1] [3, 2] 0 (-6 / 25) [1, -247 / 25]
          = Except.ok [23 / 25, -247 / 25]
      ∧ (23 / 25 : ℚ) * 3 + -247 / 25 * 2 = 1 * 3 + -10 * 2)
    ∧ ∃ w1 c1 totalfd,
      decreasePhase 2 [0, 1] [3, 2] 0 1 1 [1, -10] = Except.ok (w1, c1)
        ∧ totalFeatDist 2 [0, 1] [3, 2] 0 w1 = Except.ok totalfd
        ∧ ∑ j ∈ Finset.range 2, w1.getD j 0 * ([3, 2] : List ℚ).getD j 0
            = ∑ j ∈ Finset.range 2,
                ([1, -10] : List ℚ).getD j 0 * ([3, 2] : List ℚ).getD j 0 - c1
        ∧ (totalfd ≠ 0 →
            ∃ w2, increasePhase false 2 [0, 1] [3, 2] 0 c1 w1 = Except.ok w2
              ∧ ∑ j ∈ Finset.range 2, w2.getD j 0 * ([3, 2] : List ℚ).getD j 0
                  = ∑ j ∈ Finset.range 2,
                      ([1, -10] : List ℚ).getD j 0 * ([3, 2] : List ℚ).getD j 0) :=
  ⟨⟨by decide!, by decide!, by decide!, by norm_num⟩,
    nonproportional_update_conserves 2 [0, 1] [3, 2] [1, -10] 0 1 1 rfl rfl rfl (by decide)⟩


/-- C19 as stated fails. With `featNum=2`, `badList=[0,1]`, `featDist=[3,1/2]`,
`minBadList=0`, `pointBadness=1`, `recoPointsNum=1` and weights `[1,1]`, the
decrease phase gives `[1, 247/250]` with `c1 = 3/500`; `totalfd = 3` and
`weightAverage = 1/2` are non-zero, and the proportional increase raises
`weight[0]` to `251/250`: the sum of `weight[j] * featDist[j]` goes from `7/2` to
`1753/500`, while the non-proportional increase gives `7/2` again. -/
theorem proportional_update_not_conserving :
    decreasePhase 2 [0, 1] [3, 1 / 2] 0 1 1 [1, 1] = Except.ok ([1, 247 / 250], 3 / 500)
      ∧ totalFeatDist 2 [0, 1] [3, 1 / 2] 0 [1, 247 / 250] = Except.ok 3
      ∧ weightTotalOf 2 [0, 1] 0 [1, 247 / 250] = Except.ok 1
      ∧ increasePhase true 2 [0, 1] [3, 1 / 2] 0 (3 / 500) [1, 247 / 250]
          = Except.ok [251 / 250, 247 / 250]
      ∧ (1 : ℚ) * 3 + 1 * (1 / 2) = 7 / 2
      ∧ (251 / 250 : ℚ) * 3 + 247 / 250 * (1 / 2) = 1753 / 500
      ∧ (251 / 250 : ℚ) * 3 + 247 / 250 * (1 / 2) ≠ 1 * 3 + 1 * (1 / 2)
      ∧ increasePhase false 2 [0, 1] [3, 1 / 2] 0 (3 / 500) [1, 247 / 250]
          = Except.ok [501 / 500, 247 / 250]
      ∧ (501 / 500 : ℚ) * 3 + 247 / 250 * (1 / 2) = 1 * 3 + 1 * (1 / 2) := by
  refine ⟨by decide!, by decide!, by decide!, by decide!, by norm_num, by norm_num,
    by norm_num, by decide!, by norm_num⟩

/-- C19, amended. In the proportional variant (vectors of length `featNum`,
`recoPointsNum != 0`) the decrease phase, `totalfd` and `weightTotal` return, and
when `totalfd != 0` and `weightAverage = weightTotal / featNum != 0` the
increase phase returns and the sum over all features of
`weight[j] * featDist[j]` after both phases is its value before the decrease
phase plus `c1 * (S / (totalfd * weightAverage) - 1)`, where `S` is the sum of
`weight[j] * featDist[j]` over the increased features; it equals the value
before exactly when `c1 = 0` or `S = totalfd * weightAverage`. -/
theorem proportional_update_sum (featNum : Nat) (badList featDist weight : List ℚ)
    (minBadList pointBadness : ℚ) (recoPointsNum : Int)
    (hb : badList.length = featNum) (hf : featDist.length = featNum)
    (hw : weight.length = featNum) (hr : recoPointsNum ≠ 0) :
    ∃ w1 c1 totalfd weightTotal,
      decreasePhase featNum badList featDist minBadList pointBadness recoPointsNum weight
          = Except.ok (w1, c1)
        ∧ totalFeatDist featNum badList featDist minBadList w1 = Except.ok totalfd
        ∧ weightTotalOf featNum badList minBadList w1 = Except.ok weightTotal
        ∧ (totalfd ≠ 0 → weightTotal / (featNum : ℚ) ≠ 0 →
            ∃ w2, increasePhase true featNum badList featDist minBadList c1 w1
                = Except.ok w2
              ∧ ∑ j ∈ Finset.range featNum, w2.getD j 0 * featDist.getD j 0
                  = ∑ j ∈ Finset.range featNum, weight.getD j 0 * featDist.getD j 0
                    + c1 * ((∑ j ∈ Finset.range featNum,
                          if badList.getD j 0 = minBadList ∧ 0 < w1.getD j 0
                          then w1.getD j 0 * featDist.getD j 0 else 0)
                        / (totalfd * (weightTotal / (featNum : ℚ))) - 1)
              ∧ (∑ j ∈ Finset.range featNum, w2.getD j 0 * featDist.getD j 0
                    = ∑ j ∈ Finset.range featNum, weight.getD j 0 * featDist.getD j 0
                  ↔ c1 = 0 ∨ (∑ j ∈ Finset.range featNum,
                        if badList.getD j 0 = minBadList ∧ 0 < w1.getD j 0
                        then w1.getD j 0 * featDist.getD j 0 else 0)
                      = totalfd * (weightTotal / (featNum : ℚ)))) := by
  obtain ⟨w1, c1, hdec, hlen1, hpt1, hc1⟩ := decreasePhase_char featNum badList featDist
    weight minBadList pointBadness recoPointsNum hb hf hw hr
  have htot := totalFeatDist_char featNum badList featDist w1 minBadList hb hf hlen1
  have hwt := weightTotalOf_char featNum badList w1 minBadList hb hlen1
  have hsum1 := decrease_sum featNum badList featDist weight w1 minBadList
    (deltaW badList weight pointBadness recoPointsNum) hpt1
  rw [← hc1] at hsum1
  refine ⟨w1, c1, _, _, hdec, htot, hwt, ?_⟩
  intro ht havg
  have hn : featNum ≠ 0 := by
    intro h0
    apply havg
    rw [h0]
    simp
  obtain ⟨w2, hinc, _, hpt2⟩ := increaseProportional_char featNum badList w1 minBadList c1 _
    hb hlen1 ht hn havg
  generalize hT : (∑ j ∈ Finset.range featNum,
      if badList.getD j 0 = minBadList ∧ 0 < w1.getD j 0
      then featDist.getD j 0 else 0) = T at ht hpt2 ⊢
  generalize hA : (∑ j ∈ Finset.range featNum,
      if badList.getD j 0 = minBadList ∧ 0 < w1.getD j 0
      then w1.getD j 0 else 0) / (featNum : ℚ) = A at havg hpt2 ⊢
  have hsum2 := increase_sum featNum badList featDist w1 w2 minBadList
    (fun j => c1 / T * (w1.getD j 0 / A)) hpt2
  have hgain : (∑ j ∈ Finset.range featNum,
      if badList.getD j 0 = minBadList ∧ 0 < w1.getD j 0
      then c1 / T * (w1.getD j 0 / A) * featDist.getD j 0 else 0)
      = c1 / (T * A) * ∑ j ∈ Finset.range featNum,
          if badList.getD j 0 = minBadList ∧ 0 < w1.getD j 0
          then w1.getD j 0 * featDist.getD j 0 else 0 := by
    rw [Finset.mul_sum]
    apply Finset.sum_congr rfl
    intro j _
    by_cases h : badList.getD j 0 = minBadList ∧ 0 < w1.getD j 0
    · simp only [h, and_self, if_true]
      field_simp
      ring
    · simp only [h, if_false, mul_zero]
  generalize hS : (∑ j ∈ Finset.range featNum,
      if badList.getD j 0 = minBadList ∧ 0 < w1.getD j 0
      then w1.getD j 0 * featDist.getD j 0 else 0) = S at hgain ⊢
  have hTA : T * A ≠ 0 := mul_ne_zero ht havg
  have hmain : ∑ j ∈ Finset.range featNum, w2.getD j 0 * featDist.getD j 0
      = ∑ j ∈ Finset.range featNum, weight.getD j 0 * featDist.getD j 0
        + c1 * (S / (T * A) - 1) := by
    rw [hsum2, hgain, hsum1]
    field_simp
    ring
  refine ⟨w2, ?_, hmain, ?_⟩
  · unfold increasePhase
    rw [htot, ok_bind]
    simp only [if_true]
    exact hinc
  · rw [hmain]
    constructor
    · intro h
      have h0 : c1 * (S / (T * A) - 1) = 0 := by linarith
      rcases mul_eq_zero.mp h0 with hc | hs
      · exact Or.inl hc
      · right
        have h1 : S / (T * A) = 1 := by linarith
        exact (div_eq_one_iff_eq hTA).mp h1
    · intro h
      rcases h with hc | hs
      · rw [hc]
        ring
      · rw [hs, div_self hTA]
        ring

theorem proportional_update_sum_witness :
    (totalFeatDist 2 [0, 1] [3, 1 / 2] 0 [1, 247 / 250] = Except.ok 3
      ∧ weightTotalOf 2 [0, 1] 0 [1, 247 / 250] = Except.ok 1
      ∧ (3 : ℚ) ≠ 0 ∧ (1 : ℚ) / ((2 : ℕ) : ℚ) ≠ 0)
    ∧ ∃ w1 c1 totalfd weightTotal,
      decreasePhase 2 [0, 1] [3, 1 / 2] 0 1 1 [1, 1] = Except.ok (w1, c1)
        ∧ totalFeatDist 2 [0, 1] [3, 1 / 2] 0 w1 = Except.ok totalfd
        ∧ weightTotalOf 2 [0, 1] 0 w1 = Except.ok weightTotal
        ∧ (totalfd ≠ 0 → weightTotal / ((2 : ℕ) : ℚ) ≠ 0 →
            ∃ w2, increasePhase true 2 [0, 1] [3, 1 / 2] 0 c1 w1 = Except.ok w2
              ∧ ∑ j ∈ Finset.range 2, w2.getD j 0 * ([3, 1 / 2] : List ℚ).getD j 0
                  = ∑ j ∈ Finset.range 2,
                      ([1, 1] : List ℚ).getD j 0 * ([3, 1 / 2] : List ℚ).getD j 0
                    + c1 * ((∑ j ∈ Finset.range 2,
                          if ([0, 1] : List ℚ).getD j 0 = 0 ∧ 0 < w1.getD j 0
                          then w1.getD j 0 * ([3, 1 / 2] : List ℚ).getD j 0 else 0)
                        / (totalfd * (weightTotal / ((2 : ℕ) : ℚ))) - 1)
              ∧ (∑ j ∈ Finset.range 2, w2.getD j 0 * ([3, 1 / 2] : List ℚ).getD j 0
                    = ∑ j ∈ Finset.range 2,
                        ([1, 1] : List ℚ).getD j 0 * ([3, 1 / 2] : List ℚ).getD j 0
                  ↔ c1 = 0 ∨ (∑ j ∈ Finset.range 2,
                        if ([0, 1] : List ℚ).getD j 0 = 0 ∧ 0 < w1.getD j 0
                        then w1.getD j 0 * ([3, 1 / 2] : List ℚ).getD j 0 else 0)
                      = totalfd * (weightTotal / ((2 : ℕ) : ℚ)))) :=
  ⟨⟨by decide!, by decide!, by norm_num, by norm_num⟩,
    proportional_update_sum 2 [0, 1] [3, 1 / 2] [1, 1] 0 1 1 rfl rfl rfl (by decide)⟩

/-! ## Bounds on the statistics of a round -/

/-- An invariant indexed by the number of processed elements carries through a
loop that returns. -/
theorem foldlM_count_invariant {σ β : Type} (f : σ → β → Run σ) (I : Nat → σ → Prop)
    (hstep : ∀ k v s t, I k s → f s v = Except.ok t → I (k + 1) t) :
    ∀ (l : List β) (k : Nat) (s r : σ), I k s → l.foldlM f s = Except.ok r →
      I (k + l.length) r := by
  intro l
  induction l with
  | nil =>
    intro k s r hs hr
    cases hr
    exact hs
  | cons v vs ih =>
    intro k s r hs hr
    rw [List.foldlM_cons] at hr
    cases hv : f s v with
    | error e => rw [hv] at hr; cases hr
    | ok t =>
      rw [hv, ok_bind] at hr
      have := ih (k + 1) t r (hstep k v s t hs hv) hr
      rw [List.length_cons]
      have he : k + (vs.length + 1) = k + 1 + vs.length := by omega
      rw [he]
      exact this

theorem setAt_length {α : Type} (xs ys : List α) (i : Nat) (x : α)
    (h : setAt xs i x = Except.ok ys) : ys.length = xs.length ∧ i < xs.length := by
  unfold setAt at h
  by_cases hi : i < xs.length
  · simp only [hi, if_true, pure_eq_ok] at h
    cases h
    exact ⟨by simp, hi⟩
  · simp only [hi, if_false, throw_eq_error] at h
    cases h

theorem setIdx_length {α : Type} (xs ys : List α) (v : Int) (x : α)
    (h : setIdx xs v x = Except.ok ys) : ys.length = xs.length := by
  unfold setIdx at h
  by_cases hv : 0 ≤ v
  · simp only [hv, if_true] at h
    exact (setAt_length xs ys v.toNat x h).1
  · simp only [hv, if_false, throw_eq_error] at h
    cases h

/-- The bad-neighbour loop counts at most one per iteration: `pointBadness` lies
between `0` and the number of iterations, and the list keeps its length. -/
theorem selectBad_bounds (nonClassInds : List Int) (maxVal maxGoodDist : ℚ) (n : Nat)
    (distList : List ℚ) (recoBadList : List Int) (rb : ℚ × List ℚ × List Int)
    (h : selectBad nonClassInds maxVal maxGoodDist n distList recoBadList = Except.ok rb) :
    0 ≤ rb.1 ∧ rb.1 ≤ (n : ℚ) ∧ rb.2.2.length = recoBadList.length := by
  unfold selectBad at h
  have := foldlM_count_invariant _
    (fun k (s : ℚ × List ℚ × List Int) =>
      0 ≤ s.1 ∧ s.1 ≤ (k : ℚ) ∧ s.2.2.length = recoBadList.length)
    (by
      intro k j s t hs ht
      obtain ⟨h0, h1, h2⟩ := hs
      cases hm : getMinSubset s.2.1 nonClassInds with
      | error e => rw [hm] at ht; cases ht
      | ok r =>
        rw [hm, ok_bind] at ht
        cases hd : getIdx s.2.1 r.1 with
        | error e => rw [hd] at ht; cases ht
        | ok d =>
          rw [hd, ok_bind] at ht
          cases hs1 : setIdx s.2.1 r.1 maxVal with
          | error e => rw [hs1] at ht; cases ht
          | ok dl =>
            rw [hs1, ok_bind] at ht
            cases hs2 : setAt s.2.2 j r.1 with
            | error e => rw [hs2] at ht; cases ht
            | ok reco =>
              rw [hs2, ok_bind] at ht
              cases ht
              have hlen := (setAt_length _ _ _ _ hs2).1
              push_cast
              by_cases hc : d ≤ maxGoodDist
              · simp only [hc, if_true]
                exact ⟨by linarith, by linarith, by omega⟩
              · simp only [hc, if_false]
                exact ⟨h0, by linarith, by omega⟩)
    (List.range n) 0 (0, distList, recoBadList) rb ⟨le_rfl, by simp, rfl⟩ h
  simpa using this


/-- The scan over the bad neighbours counts at most one per neighbour and adds
absolute differences: `0 <= badList[j] <= len(recoBadList)` and
`featDist[j] >= 0`. -/
theorem badFeatStats_bounds (xTrain : List (List ℚ)) (pTrain weight : List ℚ)
    (recoBadList : List Int) (j : Nat) (maxGood : ℚ) (bf : ℚ × ℚ)
    (h : badFeatStats xTrain pTrain weight recoBadList j maxGood = Except.ok bf) :
    0 ≤ bf.1 ∧ bf.1 ≤ (recoBadList.length : ℚ) ∧ 0 ≤ bf.2 := by
  unfold badFeatStats at h
  have := foldlM_count_invariant _
    (fun k (s : ℚ × ℚ) => 0 ≤ s.1 ∧ s.1 ≤ (k : ℚ) ∧ 0 ≤ s.2)
    (by
      intro k v s t hs ht
      obtain ⟨h0, h1, h2⟩ := hs
      push_cast
      cases hrow : getIdx xTrain v with
      | error e => rw [hrow] at ht; cases ht
      | ok row =>
        rw [hrow, ok_bind] at ht
        cases hx : getAt row j with
        | error e => rw [hx] at ht; cases ht
        | ok x =>
          rw [hx, ok_bind] at ht
          by_cases hx0 : x = 0
          · simp only [hx0, ne_eq, not_true_eq_false, if_false, pure_eq_ok] at ht
            cases ht
            exact ⟨h0, by linarith, h2⟩
          · simp only [hx0, ne_eq, not_false_eq_true, if_true] at ht
            cases hp : getAt pTrain j with
            | error e => rw [hp] at ht; cases ht
            | ok p =>
              rw [hp, ok_bind] at ht
              by_cases hp0 : p = 0
              · simp only [hp0, ne_eq, not_true_eq_false, if_false, pure_eq_ok] at ht
                cases ht
                exact ⟨h0, by linarith, h2⟩
              · simp only [hp0, ne_eq, not_false_eq_true, if_true] at ht
                cases hw : getAt weight j with
                | error e => rw [hw] at ht; cases ht
                | ok w =>
                  rw [hw, ok_bind] at ht
                  simp only [pure_eq_ok] at ht
                  cases ht
                  have habs : 0 ≤ |x - p| := abs_nonneg _
                  by_cases hc : w * |x - p| ≤ maxGood
                  · simp only [hc, if_true]
                    exact ⟨by linarith, by linarith, by linarith⟩
                  · simp only [hc, if_false]
                    exact ⟨h0, by linarith, by linarith⟩)
    recoBadList 0 (0, 0) bf ⟨le_rfl, by simp, le_rfl⟩ h
  simpa using this

/-- The per-feature loop keeps the lengths of its two buffers and stores, for
every feature, a count between `0` and `len(recoBadList)` and a non-negative
total distance. -/
theorem featureStats_bounds (xTrain : List (List ℚ)) (pTrain weight : List ℚ)
    (recoGoodList recoBadList : List Int) (featNum : Nat) (badList featDist : List ℚ)
    (st : List ℚ × List ℚ)
    (h : featureStats xTrain pTrain weight recoGoodList recoBadList featNum badList featDist
      = Except.ok st) :
    st.1.length = badList.length ∧ st.2.length = featDist.length
      ∧ ∀ j, j < featNum →
          0 ≤ st.1.getD j 0 ∧ st.1.getD j 0 ≤ (recoBadList.length : ℚ)
            ∧ 0 ≤ st.2.getD j 0 := by
  unfold featureStats at h
  have hinv : ∀ (n k : Nat) (s r : List ℚ × List ℚ),
      (s.1.length = badList.length ∧ s.2.length = featDist.length
        ∧ ∀ j, j < k → 0 ≤ s.1.getD j 0 ∧ s.1.getD j 0 ≤ (recoBadList.length : ℚ)
            ∧ 0 ≤ s.2.getD j 0) →
      (List.range' k n).foldlM (fun (s : List ℚ × List ℚ) j => do
          let maxGood ← maxGoodFeatDist xTrain pTrain weight recoGoodList j
          let bl ← setAt s.1 j 0
          let fd ← setAt s.2 j 0
          let r ← badFeatStats xTrain pTrain weight recoBadList j maxGood
          let bl ← setAt bl j r.1
          let fd ← setAt fd j r.2
          pure (bl, fd)) s = Except.ok r →
      (r.1.length = badList.length ∧ r.2.length = featDist.length
        ∧ ∀ j, j < k + n → 0 ≤ r.1.getD j 0 ∧ r.1.getD j 0 ≤ (recoBadList.length : ℚ)
            ∧ 0 ≤ r.2.getD j 0) := by
    intro n
    induction n with
    | zero =>
      intro k s r hs hr
      cases hr
      simpa using hs
    | succ n ih =>
      intro k s r hs hr
      obtain ⟨hl1, hl2, hb⟩ := hs
      rw [List.range'_succ, List.foldlM_cons] at hr
      cases hmg : maxGoodFeatDist xTrain pTrain weight recoGoodList k with
      | error e => rw [hmg] at hr; cases hr
      | ok mg =>
        rw [hmg, ok_bind] at hr
        cases h1 : setAt s.1 k 0 with
        | error e => rw [h1] at hr; cases hr
        | ok bl1 =>
          rw [h1, ok_bind] at hr
          cases h2 : setAt s.2 k 0 with
          | error e => rw [h2] at hr; cases hr
          | ok fd1 =>
            rw [h2, ok_bind] at hr
            cases h3 : badFeatStats xTrain pTrain weight recoBadList k mg with
            | error e => rw [h3] at hr; cases hr
            | ok bf =>
              rw [h3, ok_bind] at hr
              cases h4 : setAt bl1 k bf.1 with
              | error e => rw [h4] at hr; cases hr
              | ok bl2 =>
                rw [h4, ok_bind] at hr
                cases h5 : setAt fd1 k bf.2 with
                | error e => rw [h5] at hr; cases hr
                | ok fd2 =>
                  rw [h5, ok_bind] at hr
                  simp only [pure_eq_ok, ok_bind] at hr
                  obtain ⟨e1, k1⟩ := setAt_length _ _ _ _ h1
                  obtain ⟨e2, k2⟩ := setAt_length _ _ _ _ h2
                  obtain ⟨e4, k4⟩ := setAt_length _ _ _ _ h4
                  obtain ⟨e5, k5⟩ := setAt_length _ _ _ _ h5
                  have hbl2 : bl2 = bl1.set k bf.1 := by
                    rw [setAt_of_lt bl1 k bf.1 k4] at h4
                    cases h4; rfl
                  have hfd2 : fd2 = fd1.set k bf.2 := by
                    rw [setAt_of_lt fd1 k bf.2 k5] at h5
                    cases h5; rfl
                  have hbl1 : bl1 = s.1.set k 0 := by
                    rw [setAt_of_lt s.1 k 0 k1] at h1
                    cases h1; rfl
                  have hfd1 : fd1 = s.2.set k 0 := by
                    rw [setAt_of_lt s.2 k 0 k2] at h2
                    cases h2; rfl
                  obtain ⟨b0, b1, b2⟩ := badFeatStats_bounds _ _ _ _ _ _ _ h3
                  have := ih (k + 1) (bl2, fd2) r ⟨by simp only; omega, by simp only; omega, by
                    intro j hj
                    by_cases hjk : j = k
                    · subst hjk
                      simp only
                      rw [hbl2, hfd2, getD_set_self bl1 j _ k4, getD_set_self fd1 j _ k5]
                      exact ⟨b0, b1, b2⟩
                    · simp only
                      rw [hbl2, hfd2, getD_set_ne bl1 k j _ (fun h => hjk h.symm),
                        getD_set_ne fd1 k j _ (fun h => hjk h.symm), hbl1, hfd1,
                        getD_set_ne s.1 k j _ (fun h => hjk h.symm),
                        getD_set_ne s.2 k j _ (fun h => hjk h.symm)]
                      exact hb j (by omega)⟩ hr
                  have he : k + (n + 1) = k + 1 + n := by omega
                  rw [he]
                  exact this
  have := hinv featNum 0 (badList, featDist) st ⟨rfl, rfl, fun j hj => by omega⟩
    (by rw [← List.range_eq_range']; exact h)
  simpa using this


/-! ## Positivity of the weights through the update -/

theorem deltaW_bounds (badList weight : List ℚ) (pointBadness : ℚ) (recoPointsNum : Int)
    (j : Nat) (hr : 1 ≤ recoPointsNum) (hw : 0 < weight.getD j 0)
    (hb0 : 0 ≤ badList.getD j 0) (hb1 : badList.getD j 0 ≤ (recoPointsNum : ℚ))
    (hp0 : 0 ≤ pointBadness) (hp1 : pointBadness ≤ (recoPointsNum : ℚ)) :
    0 ≤ deltaW badList weight pointBadness recoPointsNum j
      ∧ deltaW badList weight pointBadness recoPointsNum j ≤ 12 / 1000 * weight.getD j 0 := by
  have hR : (1 : ℚ) ≤ (recoPointsNum : ℚ) := by exact_mod_cast hr
  have hR2 : (0 : ℚ) < (recoPointsNum : ℚ) ^ 2 := by positivity
  unfold deltaW
  constructor
  · apply div_nonneg _ hR2.le
    have : 0 ≤ 1 / 5 + pointBadness := by linarith
    positivity
  · rw [div_le_iff₀ hR2]
    have h1 : badList.getD j 0 * (1 / 5 + pointBadness)
        ≤ (recoPointsNum : ℚ) * (1 / 5 + (recoPointsNum : ℚ)) :=
      mul_le_mul hb1 (by linarith) (by linarith) (by linarith)
    have h2 : (recoPointsNum : ℚ) * (1 / 5 + (recoPointsNum : ℚ))
        ≤ 6 / 5 * (recoPointsNum : ℚ) ^ 2 := by nlinarith
    have h3 : badList.getD j 0 * (1 / 5 + pointBadness) ≤ 6 / 5 * (recoPointsNum : ℚ) ^ 2 :=
      h1.trans h2
    have h4 := mul_le_mul_of_nonneg_left h3 (by positivity : 0 ≤ weight.getD j 0 * (1 / 100))
    calc weight.getD j 0 * (1 / 100) * badList.getD j 0 * (1 / 5 + pointBadness)
        = weight.getD j 0 * (1 / 100) * (badList.getD j 0 * (1 / 5 + pointBadness)) := by ring
      _ ≤ weight.getD j 0 * (1 / 100) * (6 / 5 * (recoPointsNum : ℚ) ^ 2) := h4
      _ = 12 / 1000 * weight.getD j 0 * (recoPointsNum : ℚ) ^ 2 := by ring

/-- The update on statistics within the bounds of a round: positive weights stay
positive through the decrease phase and through either increase. -/
theorem update_positive (featNum : Nat) (badList featDist weight : List ℚ)
    (minBadList pointBadness : ℚ) (recoPointsNum : Int)
    (hb : badList.length = featNum) (hf : featDist.length = featNum)
    (hw : weight.length = featNum) (hr : 1 ≤ recoPointsNum)
    (hpos : ∀ j, j < featNum → 0 < weight.getD j 0)
    (hbl : ∀ j, j < featNum →
      0 ≤ badList.getD j 0 ∧ badList.getD j 0 ≤ (recoPointsNum : ℚ))
    (hpb : 0 ≤ pointBadness ∧ pointBadness ≤ (recoPointsNum : ℚ))
    (hfd : ∀ j, j < featNum → 0 ≤ featDist.getD j 0) :
    ∃ w1 c1 totalfd,
      decreasePhase featNum badList featDist minBadList pointBadness recoPointsNum weight
          = Except.ok (w1, c1)
        ∧ totalFeatDist featNum badList featDist minBadList w1 = Except.ok totalfd
        ∧ (∀ j, j < featNum →
            988 / 1000 * weight.getD j 0 ≤ w1.getD j 0 ∧ w1.getD j 0 ≤ weight.getD j 0)
        ∧ 0 ≤ c1
        ∧ (totalfd ≠ 0 → ∀ proportional, ∃ w2,
            increasePhase proportional featNum badList featDist minBadList c1 w1
                = Except.ok w2
              ∧ ∀ j, j < featNum → w1.getD j 0 ≤ w2.getD j 0 ∧ 0 < w2.getD j 0) := by
  obtain ⟨w1, c1, hdec, hlen1, hpt1, hc1⟩ := decreasePhase_char featNum badList featDist
    weight minBadList pointBadness recoPointsNum hb hf hw (by omega)
  have htot := totalFeatDist_char featNum badList featDist w1 minBadList hb hf hlen1
  have hdw : ∀ j, j < featNum →
      0 ≤ deltaW badList weight pointBadness recoPointsNum j
        ∧ deltaW badList weight pointBadness recoPointsNum j
            ≤ 12 / 1000 * weight.getD j 0 :=
    fun j hj => deltaW_bounds badList weight pointBadness recoPointsNum j hr (hpos j hj)
      (hbl j hj).1 (hbl j hj).2 hpb.1 hpb.2
  have hw1 : ∀ j, j < featNum →
      988 / 1000 * weight.getD j 0 ≤ w1.getD j 0 ∧ w1.getD j 0 ≤ weight.getD j 0 := by
    intro j hj
    rw [hpt1 j hj]
    have hp := hpos j hj
    obtain ⟨d0, d1⟩ := hdw j hj
    by_cases h : badList.getD j 0 = minBadList
    · simp only [h, ne_eq, not_true_eq_false, if_false]
      exact ⟨by linarith, le_rfl⟩
    · simp only [h, ne_eq, not_false_eq_true, if_true]
      exact ⟨by linarith, by linarith⟩
  have hw1pos : ∀ j, j < featNum → 0 < w1.getD j 0 := by
    intro j hj
    have := (hw1 j hj).1
    have hp := hpos j hj
    linarith
  have hc1nn : 0 ≤ c1 := by
    rw [hc1]
    apply Finset.sum_nonneg
    intro j hj
    have hjn := Finset.mem_range.mp hj
    by_cases h : badList.getD j 0 = minBadList
    · simp only [h, ne_eq, not_true_eq_false, if_false, le_refl]
    · simp only [h, ne_eq, not_false_eq_true, if_true]
      exact mul_nonneg (hdw j hjn).1 (hfd j hjn)
  refine ⟨w1, c1, _, hdec, htot, hw1, hc1nn, ?_⟩
  intro ht proportional
  generalize hT : (∑ j ∈ Finset.range featNum,
      if badList.getD j 0 = minBadList ∧ 0 < w1.getD j 0
      then featDist.getD j 0 else 0) = T at ht htot
  have hTnn : 0 ≤ T := by
    rw [← hT]
    apply Finset.sum_nonneg
    intro j hj
    by_cases h : badList.getD j 0 = minBadList ∧ 0 < w1.getD j 0
    · simp only [h, and_self, if_true]
      exact hfd j (Finset.mem_range.mp hj)
    · simp only [h, if_false, le_refl]
  have hTpos : 0 < T := lt_of_le_of_ne hTnn (Ne.symm ht)
  have hq : 0 ≤ c1 / T := div_nonneg hc1nn hTnn
  unfold increasePhase
  rw [htot, ok_bind]
  cases proportional
  · simp only [Bool.false_eq_true, if_false]
    obtain ⟨w2, hinc, _, hpt2⟩ := increaseOriginal_char featNum badList w1 minBadList c1 T
      hb hlen1 ht
    refine ⟨w2, hinc, ?_⟩
    intro j hj
    rw [hpt2 j hj]
    have hp := hw1pos j hj
    by_cases h : badList.getD j 0 = minBadList ∧ 0 < w1.getD j 0
    · simp only [h, and_self, if_true]
      exact ⟨by linarith, by linarith⟩
    · simp only [h, if_false]
      exact ⟨le_rfl, hp⟩
  · simp only [if_true]
    have hex : ∃ j, j ∈ Finset.range featNum
        ∧ badList.getD j 0 = minBadList ∧ 0 < w1.getD j 0 := by
      by_contra hno
      apply ht
      rw [← hT]
      apply Finset.sum_eq_zero
      intro j hj
      have hnj : ¬ (badList.getD j 0 = minBadList ∧ 0 < w1.getD j 0) :=
        fun h => hno ⟨j, hj, h⟩
      simp only [hnj, if_false]
    obtain ⟨j0, hj0, htar0⟩ := hex
    have hn : featNum ≠ 0 := by
      have := Finset.mem_range.mp hj0
      omega
    have hwtot : 0 < ∑ j ∈ Finset.range featNum,
        if badList.getD j 0 = minBadList ∧ 0 < w1.getD j 0 then w1.getD j 0 else 0 := by
      apply Finset.sum_pos'
      · intro j hj
        by_cases h : badList.getD j 0 = minBadList ∧ 0 < w1.getD j 0
        · simp only [h, and_self, if_true]
          exact h.2.le
        · simp only [h, if_false, le_refl]
      · exact ⟨j0, hj0, by simp only [htar0, and_self, if_true]⟩
    have hnq : (0 : ℚ) < (featNum : ℚ) := by
      have : 0 < featNum := Nat.pos_of_ne_zero hn
      exact_mod_cast this
    have havg : 0 < (∑ j ∈ Finset.range featNum,
        if badList.getD j 0 = minBadList ∧ 0 < w1.getD j 0 then w1.getD j 0 else 0)
          / (featNum : ℚ) := div_pos hwtot hnq
    obtain ⟨w2, hinc, _, hpt2⟩ := increaseProportional_char featNum badList w1 minBadList
      c1 T hb hlen1 ht hn (ne_of_gt havg)
    refine ⟨w2, hinc, ?_⟩
    intro j hj
    rw [hpt2 j hj]
    have hp := hw1pos j hj
    by_cases h : badList.getD j 0 = minBadList ∧ 0 < w1.getD j 0
    · simp only [h, and_self, if_true]
      have hgain : 0 ≤ c1 / T * (w1.getD j 0
          / ((∑ j ∈ Finset.range featNum,
              if badList.getD j 0 = minBadList ∧ 0 < w1.getD j 0
              then w1.getD j 0 else 0) / (featNum : ℚ))) :=
        mul_nonneg hq (div_nonneg hp.le havg.le)
      exact ⟨by linarith, by linarith⟩
    · simp only [h, if_false]
      exact ⟨le_rfl, hp⟩


/-- C20. For a round with `recoPointsNum >= 1`, once the bad-neighbour loop has
returned `pointBadness` and `recoBadList` and the per-feature loop has returned
`badList` and `featDist` (lines 185-193 and 196-224), the code gives
`0 <= pointBadness <= recoPointsNum`, `0 <= badList[j] <= recoPointsNum` and
`featDist[j] >= 0`; if every weight is strictly positive before the update, the
decrease phase returns with every weight at least `0.988` times its previous
value and with `c1 >= 0`, and when `totalfd != 0` the increase phase returns in
both variants with no weight lowered, so every weight is strictly positive after
the round. -/
theorem weights_stay_positive (xTrain : List (List ℚ)) (pTrain weight : List ℚ)
    (nonClassInds recoGoodList recoBadList0 : List Int) (maxVal maxGoodDist : ℚ)
    (distList badList0 featDist0 : List ℚ) (featNum : Nat) (recoPointsNum : Int)
    (rb : ℚ × List ℚ × List Int) (st : List ℚ × List ℚ)
    (hr : 1 ≤ recoPointsNum) (hreco : recoBadList0.length = recoPointsNum.toNat)
    (hw : weight.length = featNum) (hb0 : badList0.length = featNum)
    (hf0 : featDist0.length = featNum)
    (hpos : ∀ j, j < featNum → 0 < weight.getD j 0)
    (hsb : selectBad nonClassInds maxVal maxGoodDist recoPointsNum.toNat distList
      recoBadList0 = Except.ok rb)
    (hfs : featureStats xTrain pTrain weight recoGoodList rb.2.2 featNum badList0 featDist0
      = Except.ok st) :
    (0 ≤ rb.1 ∧ rb.1 ≤ (recoPointsNum : ℚ))
      ∧ (∀ j, j < featNum → 0 ≤ st.1.getD j 0 ∧ st.1.getD j 0 ≤ (recoPointsNum : ℚ)
          ∧ 0 ≤ st.2.getD j 0)
      ∧ ∃ w1 c1 totalfd,
          decreasePhase featNum st.1 st.2 (getMin st.1).2 rb.1 recoPointsNum weight
              = Except.ok (w1, c1)
            ∧ totalFeatDist featNum st.1 st.2 (getMin st.1).2 w1 = Except.ok totalfd
            ∧ (∀ j, j < featNum →
                988 / 1000 * weight.getD j 0 ≤ w1.getD j 0 ∧ 0 < w1.getD j 0)
            ∧ 0 ≤ c1
            ∧ (totalfd ≠ 0 → ∀ proportional, ∃ w2,
                increasePhase proportional featNum st.1 st.2 (getMin st.1).2 c1 w1
                    = Except.ok w2
                  ∧ ∀ j, j < featNum → w1.getD j 0 ≤ w2.getD j 0 ∧ 0 < w2.getD j 0) := by
  have hcast : ((recoPointsNum.toNat : ℕ) : ℚ) = (recoPointsNum : ℚ) := by
    have h := Int.toNat_of_nonneg (by omega : 0 ≤ recoPointsNum)
    rw [← Int.cast_natCast, h]
  obtain ⟨hp0, hp1, hlen⟩ := selectBad_bounds _ _ _ _ _ _ rb hsb
  rw [hcast] at hp1
  obtain ⟨hl1, hl2, hbounds⟩ := featureStats_bounds _ _ _ _ _ _ _ _ st hfs
  rw [hlen, hreco, hcast] at hbounds
  obtain ⟨w1, c1, totalfd, hdec, htot, hw1, hc1, hinc⟩ := update_positive featNum st.1 st.2
    weight (getMin st.1).2 rb.1 recoPointsNum (by omega) (by omega) hw hr hpos
    (fun j hj => ⟨(hbounds j hj).1, (hbounds j hj).2.1⟩) ⟨hp0, hp1⟩
    (fun j hj => (hbounds j hj).2.2)
  refine ⟨⟨hp0, hp1⟩, hbounds, w1, c1, totalfd, hdec, htot, ?_, hc1, hinc⟩
  intro j hj
  have h1 := (hw1 j hj).1
  have h2 := hpos j hj
  exact ⟨h1, by linarith⟩

theorem weights_stay_positive_witness :
    (selectBad [2] 0 0 1 [0, 0, -17] [0] = Except.ok (1, [0, 0, 0], [2])
      ∧ featureStats [[1, 1], [2, 2], [4, 3 / 2]] [1, 1] [1, 1] [1] [2] 2 [0, 0] [0, 0]
          = Except.ok ([0, 1], [3, 1 / 2])
      ∧ getMin [0, 1] = (0, 0)
      ∧ decreasePhase 2 [0, 1] [3, 1 / 2] 0 1 1 [1, 1]
          = Except.ok ([1, 247 / 250], 3 / 500)
      ∧ totalFeatDist 2 [0, 1] [3, 1 / 2] 0 [1, 247 / 250] = Except.ok 3
      ∧ increasePhase false 2 [0, 1] [3, 1 / 2] 0 (3 / 500) [1, 247 / 250]
          = Except.ok [501 / 500, 247 / 250]
      ∧ increasePhase true 2 [0, 1] [3, 1 / 2] 0 (3 / 500) [1, 247 / 250]
          = Except.ok [251 / 250, 247 / 250])
    ∧ ((0 ≤ ((1, [0, 0, 0], [2]) : ℚ × List ℚ × List Int).1
        ∧ ((1, [0, 0, 0], [2]) : ℚ × List ℚ × List Int).1 ≤ ((1 : Int) : ℚ))
      ∧ (∀ j, j < 2 → 0 ≤ (([0, 1], [3, 1 / 2]) : List ℚ × List ℚ).1.getD j 0
          ∧ (([0, 1], [3, 1 / 2]) : List ℚ × List ℚ).1.getD j 0 ≤ ((1 : Int) : ℚ)
          ∧ 0 ≤ (([0, 1], [3, 1 / 2]) : List ℚ × List ℚ).2.getD j 0)
      ∧ ∃ w1 c1 totalfd,
          decreasePhase 2 (([0, 1], [3, 1 / 2]) : List ℚ × List ℚ).1
              (([0, 1], [3, 1 / 2]) : List ℚ × List ℚ).2
              (getMin (([0, 1], [3, 1 / 2]) : List ℚ × List ℚ).1).2
              ((1, [0, 0, 0], [2]) : ℚ × List ℚ × List Int).1 1 [1, 1]
              = Except.ok (w1, c1)
            ∧ totalFeatDist 2 (([0, 1], [3, 1 / 2]) : List ℚ × List ℚ).1
                (([0, 1], [3, 1 / 2]) : List ℚ × List ℚ).2
                (getMin (([0, 1], [3, 1 / 2]) : List ℚ × List ℚ).1).2 w1
                = Except.ok totalfd
            ∧ (∀ j, j < 2 →
                988 / 1000 * ([1, 1] : List ℚ).getD j 0 ≤ w1.getD j 0 ∧ 0 < w1.getD j 0)
            ∧ 0 ≤ c1
            ∧ (totalfd ≠ 0 → ∀ proportional, ∃ w2,
                increasePhase proportional 2 (([0, 1], [3, 1 / 2]) : List ℚ × List ℚ).1
                    (([0, 1], [3, 1 / 2]) : List ℚ × List ℚ).2
                    (getMin (([0, 1], [3, 1 / 2]) : List ℚ × List ℚ).1).2 c1 w1
                    = Except.ok w2
                  ∧ ∀ j, j < 2 → w1.getD j 0 ≤ w2.getD j 0 ∧ 0 < w2.getD j 0)) :=
  ⟨⟨by decide!, by decide!, by decide!, by decide!, by decide!, by decide!, by decide!⟩,
    weights_stay_positive [[1, 1], [2, 2], [4, 3 / 2]] [1, 1] [1, 1] [2] [1] [0] 0 0
      [0, 0, -17] [0, 0] [0, 0] 2 1 (1, [0, 0, 0], [2]) ([0, 1], [3, 1 / 2])
      (by decide) rfl rfl rfl rfl
      (fun j hj => by
        have hj2 : j = 0 ∨ j = 1 := by omega
        rcases hj2 with rfl | rfl <;> decide!)
      (by decide!) (by decide!)⟩

end WaKnn
